import Mathlib

/-!
Shallow embedding of the duration codec and configuration validation of
`pkg/plumber/types.go`, together with the standard-library behavior that
code delegates to (`encoding/json` scalar decoding into `int64`/`string`,
`json.Marshal` of a string, `time.ParseDuration`, `time.Duration.String`).

Machine integers are modelled as `Nat`/`Int` with the explicit `2^63`
bounds that the Go code checks.  Strings are modelled at the character
level (faithful for valid UTF-8 input).  Two deliberate modelling notes:

* `time.ParseDuration` computes the fractional-part contribution as
  `uint64(float64(f) * (float64(unit) / scale))`; it is modelled here by
  the exact integer computation `f * unit / scale`, which agrees with the
  float64 computation whenever that computation is exact — in particular
  on every string produced by `Duration.String`, where the fraction has at
  most 9 digits and the unit/scale quotient is a power of ten.
* compound JSON values (objects and arrays) are classified by a single
  `jcompound` tag without validating their interior: both scalar decoders
  used by `Duration.UnmarshalJSON` reject any compound value (with either
  a syntax or an unmarshal-type error), and no property below depends on
  which of the two errors is produced.
-/

namespace Lighthouse

/-- The decimal digit character for a value below ten. -/
def digitChar (n : Nat) : Char := Char.ofNat (48 + n)

/-- Fueled decimal printer, following Go's `fmtInt` (digits emitted from the
least significant end).  The fuel only serves structural recursion; any fuel
above the input is enough. -/
def natDigitsAux : Nat → Nat → List Char
  | 0, _ => []
  | fuel + 1, n =>
    if n < 10 then [digitChar n]
    else natDigitsAux fuel (n / 10) ++ [digitChar (n % 10)]

/-- Decimal digit string of a natural number, most significant digit first. -/
def natDigits (n : Nat) : List Char := natDigitsAux (n + 1) n

/-- Value of a list of decimal digit characters (Go `strconv` accumulation). -/
def digitsToNat (ds : List Char) : Nat :=
  ds.foldl (fun a c => a * 10 + (c.toNat - 48)) 0

/-- The decimal representation of an integer, as a string. -/
def intDecimal (n : Int) : String :=
  if n < 0 then String.mk ('-' :: natDigits n.natAbs)
  else String.mk (natDigits n.natAbs)

/-- Errors produced by the embedded Go standard-library functions. -/
inductive GoErr where
  | syntaxError (msg : String)
  | typeError (kind target : String)
  | invalidDuration (orig : String)
  | missingUnit (orig : String)
  | unknownUnit (u orig : String)
deriving DecidableEq

/-- The `Error()` message of each embedded error, as Go renders it. -/
def errMessage : GoErr → String
  | .syntaxError m => m
  | .typeError kind target =>
      "json: cannot unmarshal " ++ kind ++ " into Go value of type " ++ target
  | .invalidDuration orig => "time: invalid duration \"" ++ orig ++ "\""
  | .missingUnit orig => "time: missing unit in duration \"" ++ orig ++ "\""
  | .unknownUnit u orig =>
      "time: unknown unit \"" ++ u ++ "\" in duration \"" ++ orig ++ "\""

/-- Go `strconv.ParseInt(s, 10, 64)`: optional sign, decimal digits, with the
int64 range check.  Returns `none` on any syntax or range error (the JSON
decoder treats every `ParseInt` failure alike). -/
def goParseInt64 (cs : List Char) : Option Int :=
  if cs = [] then none
  else
    let neg : Bool := cs.head? == some '-'
    let ds := if cs.head? == some '-' || cs.head? == some '+' then cs.tail else cs
    if ds = [] then none
    else if ds.all Char.isDigit then
      let v := digitsToNat ds
      if neg then (if v ≤ 2 ^ 63 then some (-(v : Int)) else none)
      else (if v ≤ 2 ^ 63 - 1 then some (v : Int) else none)
    else none

/-- JSON insignificant whitespace. -/
def jsonWS (c : Char) : Bool := c == ' ' || c == '\t' || c == '\n' || c == '\r'

/-- Drop leading JSON whitespace. -/
def skipWSl (cs : List Char) : List Char := cs.dropWhile jsonWS

/-- The remainder contains nothing but JSON whitespace. -/
def wsOnly (cs : List Char) : Bool := skipWSl cs == []

/-- Hex digit value, as accepted in a JSON `\u` escape. -/
def hexVal (c : Char) : Option Nat :=
  if '0' ≤ c ∧ c ≤ '9' then some (c.toNat - 48)
  else if 'a' ≤ c ∧ c ≤ 'f' then some (c.toNat - 87)
  else if 'A' ≤ c ∧ c ≤ 'F' then some (c.toNat - 55)
  else none

/-- Decode a 4-hex-digit `\uXXXX` escape.  Surrogate halves decode to the
replacement character, as in Go's decoder (surrogate-pair combination is not
modelled; no property below concerns paired surrogates). -/
def unescapeU (a b c d : Char) : Option Char :=
  match hexVal a, hexVal b, hexVal c, hexVal d with
  | some ha, some hb, some hc, some hd =>
    let code := ha * 4096 + hb * 256 + hc * 16 + hd
    if 0xD800 ≤ code ∧ code < 0xE000 then some (Char.ofNat 0xFFFD)
    else some (Char.ofNat code)
  | _, _, _, _ => none

/-- Single-character JSON escapes. -/
def simpleEscape (e : Char) : Option Char :=
  if e = '"' then some '"'
  else if e = '\\' then some '\\'
  else if e = '/' then some '/'
  else if e = 'b' then some (Char.ofNat 8)
  else if e = 'f' then some (Char.ofNat 12)
  else if e = 'n' then some '\n'
  else if e = 'r' then some '\r'
  else if e = 't' then some '\t'
  else none

/-- Scan the body of a JSON string literal (the opening quote already
consumed): returns the decoded content and the input after the closing quote,
or `none` on an unterminated/ill-formed literal.  Raw control characters are
rejected, as in Go's scanner.  Fuel-structural; fuel above the input length
is enough. -/
def scanStringAux : Nat → List Char → Option (List Char × List Char)
  | 0, _ => none
  | _ + 1, [] => none
  | fuel + 1, c :: cs =>
    if c = '"' then some ([], cs)
    else if c = '\\' then
      match cs with
      | [] => none
      | e :: cs2 =>
        if e = 'u' then
          match cs2 with
          | a :: b :: c2 :: d :: cs3 =>
            match unescapeU a b c2 d with
            | some ch => (scanStringAux fuel cs3).map (fun r => (ch :: r.1, r.2))
            | none => none
          | _ => none
        else
          match simpleEscape e with
          | some ch => (scanStringAux fuel cs2).map (fun r => (ch :: r.1, r.2))
          | none => none
    else if c.toNat < 32 then none
    else (scanStringAux fuel cs).map (fun r => (c :: r.1, r.2))

/-- Scan the exponent tail of a JSON number (after `e`/`E`). -/
def scanExpTail (acc : List Char) (e : Char) (cs : List Char) :
    Option (List Char × List Char) :=
  let sd : List Char × List Char :=
    match cs with
    | '+' :: t => (['+'], t)
    | '-' :: t => (['-'], t)
    | t => ([], t)
  let ds := sd.2.takeWhile Char.isDigit
  if ds = [] then none
  else some (acc ++ e :: sd.1 ++ ds, sd.2.dropWhile Char.isDigit)

/-- Scan the optional fraction and exponent of a JSON number. -/
def scanFracExp (acc : List Char) (cs : List Char) :
    Option (List Char × List Char) :=
  let step1 : Option (List Char × List Char) :=
    match cs with
    | '.' :: t =>
      let ds := t.takeWhile Char.isDigit
      if ds = [] then none
      else some (acc ++ '.' :: ds, t.dropWhile Char.isDigit)
    | _ => some (acc, cs)
  match step1 with
  | none => none
  | some (acc2, cs2) =>
    match cs2 with
    | 'e' :: t => scanExpTail acc2 'e' t
    | 'E' :: t => scanExpTail acc2 'E' t
    | _ => some (acc2, cs2)

/-- Scan a JSON number literal (`-? (0 | [1-9][0-9]*) frac? exp?`): returns
the literal text and the remaining input. -/
def scanNumber (cs : List Char) : Option (List Char × List Char) :=
  let sgn : List Char := if cs.head? == some '-' then ['-'] else []
  let cs1 := if cs.head? == some '-' then cs.tail else cs
  match cs1 with
  | [] => none
  | c :: t =>
    if c = '0' then scanFracExp (sgn ++ ['0']) t
    else if c.isDigit then
      scanFracExp (sgn ++ c :: t.takeWhile Char.isDigit) (t.dropWhile Char.isDigit)
    else none

/-- Classification of a top-level JSON document, as far as the two scalar
decoders used by `Duration.UnmarshalJSON` need it. -/
inductive JTop where
  | jnull
  | jbool
  | jnum (lit : List Char)
  | jstr (content : List Char)
  | jcompound
deriving DecidableEq

/-- Classify a JSON document: the single top-level value with optional
surrounding whitespace, rejecting trailing data, as Go's `json.Unmarshal`
syntax check does. -/
def parseJTop (b : String) : Except GoErr JTop :=
  let cs := skipWSl b.toList
  match cs with
  | [] => .error (.syntaxError "unexpected end of JSON input")
  | c :: rest =>
    if c = 'n' then
      match rest with
      | 'u' :: 'l' :: 'l' :: r2 =>
        if wsOnly r2 then .ok .jnull
        else .error (.syntaxError "invalid character after top-level value")
      | _ => .error (.syntaxError "invalid character in literal null")
    else if c = 't' then
      match rest with
      | 'r' :: 'u' :: 'e' :: r2 =>
        if wsOnly r2 then .ok .jbool
        else .error (.syntaxError "invalid character after top-level value")
      | _ => .error (.syntaxError "invalid character in literal true")
    else if c = 'f' then
      match rest with
      | 'a' :: 'l' :: 's' :: 'e' :: r2 =>
        if wsOnly r2 then .ok .jbool
        else .error (.syntaxError "invalid character after top-level value")
      | _ => .error (.syntaxError "invalid character in literal false")
    else if c = '"' then
      match scanStringAux (rest.length + 1) rest with
      | some (content, r2) =>
        if wsOnly r2 then .ok (.jstr content)
        else .error (.syntaxError "invalid character after top-level value")
      | none => .error (.syntaxError "invalid string literal")
    else if c = '{' then .ok .jcompound
    else if c = '[' then .ok .jcompound
    else
      match scanNumber (c :: rest) with
      | some (lit, r2) =>
        if wsOnly r2 then .ok (.jnum lit)
        else .error (.syntaxError "invalid character after top-level value")
      | none => .error (.syntaxError "invalid character looking for beginning of value")

/-- Go `json.Unmarshal(b, &x)` for `x : int64` (here: `time.Duration`).
`.ok none` is the `null` case, which succeeds without storing anything;
`.ok (some v)` stores `v`. -/
def jsonUnmarshalInt64 (b : String) : Except GoErr (Option Int) :=
  match parseJTop b with
  | .error e => .error e
  | .ok .jnull => .ok none
  | .ok (.jnum lit) =>
    match goParseInt64 lit with
    | some v => .ok (some v)
    | none => .error (.typeError ("number " ++ String.mk lit) "time.Duration")
  | .ok (.jstr _) => .error (.typeError "string" "time.Duration")
  | .ok .jbool => .error (.typeError "bool" "time.Duration")
  | .ok .jcompound => .error (.typeError "compound value" "time.Duration")

/-- Go `json.Unmarshal(b, &x)` for `x : string`: `.ok none` is the `null`
case (no store), `.ok (some s)` stores the decoded string. -/
def jsonUnmarshalString (b : String) : Except GoErr (Option String) :=
  match parseJTop b with
  | .error e => .error e
  | .ok .jnull => .ok none
  | .ok (.jstr content) => .ok (some (String.mk content))
  | .ok (.jnum lit) => .error (.typeError ("number " ++ String.mk lit) "string")
  | .ok .jbool => .error (.typeError "bool" "string")
  | .ok .jcompound => .error (.typeError "compound value" "string")

/-- Lower-case hex digit. -/
def toHexDigit (n : Nat) : Char :=
  if n < 10 then digitChar n else Char.ofNat (87 + n)

/-- Go `json.Marshal` escaping of one character of a string value (default
encoder, HTML escaping on). -/
def escapeChar (c : Char) : List Char :=
  if c = '"' then ['\\', '"']
  else if c = '\\' then ['\\', '\\']
  else if c = '\n' then ['\\', 'n']
  else if c = '\r' then ['\\', 'r']
  else if c = '\t' then ['\\', 't']
  else if c.toNat < 32 then
    ['\\', 'u', '0', '0', toHexDigit (c.toNat / 16), toHexDigit (c.toNat % 16)]
  else if c = '<' ∨ c = '>' ∨ c = '&' then
    ['\\', 'u', '0', '0', toHexDigit (c.toNat / 16), toHexDigit (c.toNat % 16)]
  else if c.toNat = 0x2028 ∨ c.toNat = 0x2029 then
    ['\\', 'u', '2', '0', '2', toHexDigit (c.toNat % 16)]
  else [c]

/-- Go `json.Marshal` of a string value. -/
def jsonMarshalString (s : String) : String :=
  String.mk ('"' :: (s.toList.map escapeChar).flatten ++ ['"'])

/-- Go `time` unit table (`unitMap`), in nanoseconds. -/
def unitMap : List Char → Option Nat
  | ['n', 's'] => some 1
  | ['u', 's'] => some 1000
  | ['µ', 's'] => some 1000
  | ['μ', 's'] => some 1000
  | ['m', 's'] => some 1000000
  | ['s'] => some 1000000000
  | ['m'] => some 60000000000
  | ['h'] => some 3600000000000
  | _ => none

/-- Go `time.leadingInt`: consume leading decimal digits into an
accumulator, with the `2^63` overflow checks of the source. -/
def leadingIntAux : List Char → Nat → Except Unit (Nat × List Char)
  | [], x => .ok (x, [])
  | c :: cs, x =>
    if c.isDigit then
      if x > 2 ^ 63 / 10 then .error ()
      else
        let y := x * 10 + (c.toNat - 48)
        if y > 2 ^ 63 then .error ()
        else leadingIntAux cs y
    else .ok (x, c :: cs)

/-- Go `time.leadingInt` on a suffix of the duration string. -/
def leadingInt (cs : List Char) : Except Unit (Nat × List Char) :=
  leadingIntAux cs 0

/-- Go `time.leadingFraction`: consume fraction digits, returning the digit
value, the scale (10 per consumed digit, frozen on overflow) and the rest.
The scale, a `float64` in the source, is a `Nat` here; every reachable scale
value is an exactly-representable power of ten. -/
def leadingFractionAux : List Char → Nat → Nat → Bool → Nat × Nat × List Char
  | [], x, scale, _ => (x, scale, [])
  | c :: cs, x, scale, overflow =>
    if c.isDigit then
      if overflow then leadingFractionAux cs x scale true
      else if x > (2 ^ 63 - 1) / 10 then leadingFractionAux cs x scale true
      else
        let y := x * 10 + (c.toNat - 48)
        if y > 2 ^ 63 then leadingFractionAux cs x scale true
        else leadingFractionAux cs y (scale * 10) false
    else (x, scale, c :: cs)

/-- Go `time.leadingFraction` on a suffix of the duration string. -/
def leadingFraction (cs : List Char) : Nat × Nat × List Char :=
  leadingFractionAux cs 0 1 false

/-- One unit character: anything that is not a digit and not a dot. -/
def isUnitChar (c : Char) : Bool := !(c == '.' || c.isDigit)

/-- One iteration of the main loop of Go `time.ParseDuration`: consume one
`[0-9]*(\.[0-9]*)?unit` component from `c :: cs`, adding its nanosecond value
to the accumulator `d`, with the source's `2^63` overflow checks.  Returns
the new accumulator and the remaining input. -/
def durIter (orig : String) (c : Char) (cs : List Char) (d : Nat) :
    Except GoErr (Nat × List Char) :=
  if c == '.' || c.isDigit then
    match leadingInt (c :: cs) with
    | .error _ => .error (.invalidDuration orig)
    | .ok (v, s2) =>
      let pre : Bool := s2.length != (c :: cs).length
      let fsp : Nat × Nat × List Char × Bool :=
        if s2.head? = some '.' then
          let t := s2.tail
          let lf := leadingFraction t
          (lf.1, lf.2.1, lf.2.2, lf.2.2.length != t.length)
        else (0, 1, s2, false)
      let f := fsp.1
      let scale := fsp.2.1
      let s3 := fsp.2.2.1
      let post := fsp.2.2.2
      if !pre && !post then .error (.invalidDuration orig)
      else
        let unitCs := s3.takeWhile isUnitChar
        let s4 := s3.dropWhile isUnitChar
        if unitCs = [] then .error (.missingUnit orig)
        else
          match unitMap unitCs with
          | none => .error (.unknownUnit (String.mk unitCs) orig)
          | some u =>
            if v > 2 ^ 63 / u then .error (.invalidDuration orig)
            else
              let v2 := v * u
              let v3 := if f > 0 then v2 + f * u / scale else v2
              if f > 0 ∧ v3 > 2 ^ 63 then .error (.invalidDuration orig)
              else
                let d2 := d + v3
                if d2 > 2 ^ 63 then .error (.invalidDuration orig)
                else .ok (d2, s4)
  else .error (.invalidDuration orig)

/-- The main loop of Go `time.ParseDuration`, one `durIter` per component.
Fuel-structural; each iteration consumes at least one character, so fuel
above the input length is enough. -/
def durLoop (orig : String) : Nat → List Char → Nat → Except GoErr Nat
  | _, [], d => .ok d
  | 0, _ :: _, _ => .error (.invalidDuration orig)
  | fuel + 1, c :: cs, d =>
    match durIter orig c cs d with
    | .error e => .error e
    | .ok (d2, s4) => durLoop orig fuel s4 d2

/-- Go `time.ParseDuration`. -/
def goParseDuration (str : String) : Except GoErr Int :=
  let orig := str
  let cs0 := str.toList
  let neg : Bool := cs0.head? == some '-'
  let cs1 :=
    if cs0.head? == some '-' || cs0.head? == some '+' then cs0.tail else cs0
  if cs1 = ['0'] then .ok 0
  else if cs1 = [] then .error (.invalidDuration orig)
  else
    match durLoop orig (cs1.length + 1) cs1 0 with
    | .error e => .error e
    | .ok d =>
      if neg then .ok (-(d : Int))
      else if d > 2 ^ 63 - 1 then .error (.invalidDuration orig)
      else .ok (d : Int)

/-- The digit-emitting loop of Go `time.fmtFrac`: processes `prec` low
digits of `v`, least significant first, emitting a digit only once a nonzero
digit has been seen (`pr` is the `print` flag). -/
def fmtFracGo : Nat → Nat → Bool → List Char × Bool
  | 0, _, pr => ([], pr)
  | p + 1, v, pr =>
    let digit := v % 10
    let pr2 := pr || decide (digit ≠ 0)
    let r := fmtFracGo p (v / 10) pr2
    (r.1 ++ (if pr2 then [digitChar digit] else []), r.2)

/-- Go `time.fmtFrac`: the fraction text (with leading dot, trailing zeros
omitted, empty when the fraction is zero) and `v / 10^prec`. -/
def fmtFrac (v : Nat) (prec : Nat) : List Char × Nat :=
  let r := fmtFracGo prec v false
  ((if r.2 then '.' :: r.1 else r.1), v / 10 ^ prec)

/-- Go `time.Duration.String()` on a value of `d` nanoseconds. -/
def durationString (d : Int) : String :=
  let u := d.natAbs
  if u < 1000000000 then
    if u = 0 then "0s"
    else
      let core :=
        if u < 1000 then natDigits u ++ ['n', 's']
        else if u < 1000000 then
          let r := fmtFrac u 3
          natDigits r.2 ++ r.1 ++ ['µ', 's']
        else
          let r := fmtFrac u 6
          natDigits r.2 ++ r.1 ++ ['m', 's']
      String.mk (if d < 0 then '-' :: core else core)
  else
    let r := fmtFrac u 9
    let secs := r.2
    let sPart := natDigits (secs % 60) ++ r.1 ++ ['s']
    let mins := secs / 60
    let core :=
      if mins > 0 then
        let mPart := natDigits (mins % 60) ++ ['m']
        let hrs := mins / 60
        (if hrs > 0 then natDigits hrs ++ ['h'] else []) ++ mPart ++ sPart
      else sPart
    String.mk (if d < 0 then '-' :: core else core)

/-- `Duration.UnmarshalJSON` from `pkg/plumber/types.go`, as a function of
the receiver's stored value `d0` and the raw input `b`: returns the error (if
any) and the receiver's stored value afterwards. -/
def Duration.unmarshalJSON (d0 : Int) (b : String) : Option GoErr × Int :=
  match jsonUnmarshalInt64 b with
  | .ok none => (none, d0)
  | .ok (some v) => (none, v)
  | .error _ =>
    match jsonUnmarshalString b with
    | .error e => (some e, d0)
    | .ok r =>
      let str := match r with
        | none => ""
        | some s => s
      match goParseDuration str with
      | .error e => (some e, d0)
      | .ok v => (none, v)

/-- `Duration.MarshalJSON` from `pkg/plumber/types.go`:
`json.Marshal(d.Duration.String())`. -/
def Duration.marshalJSON (d : Int) : String :=
  jsonMarshalString (durationString d)

/-- Parsing an input into a fresh (zero) `Duration`, yielding the stored
value on success — the spec's `parse`. -/
def parseDur (b : String) : Option Int :=
  match Duration.unmarshalJSON 0 b with
  | (none, v) => some v
  | (some _, _) => none

/-- The spec's `serialize`. -/
def serializeDur (d : Int) : String := Duration.marshalJSON d

/-- `DecorationConfig` from `pkg/plumber/types.go` (durations carried as
nanosecond counts). -/
structure DecorationConfig where
  Timeout : Option Int
  GracePeriod : Option Int
  GCSCredentialsSecret : String
  SSHKeySecrets : List String
  SSHHostFingerprints : List String
  SkipCloning : Option Bool
  CookiefileSecret : String

/-- `DecorationConfig.Validate` from `pkg/plumber/types.go`: `return nil`. -/
def DecorationConfig.Validate (_ : DecorationConfig) : Option GoErr := none

/-- The all-absent `DecorationConfig`. -/
def emptyDecorationConfig : DecorationConfig := ⟨none, none, "", [], [], none, ""⟩

end Lighthouse

namespace Lighthouse

theorem char_isDigit_iff (c : Char) : c.isDigit = true ↔ 48 ≤ c.toNat ∧ c.toNat ≤ 57 := by
  simp [Char.isDigit, Char.toNat, UInt32.le_def, BitVec.le_def, UInt32.toNat]

theorem digitChar_toNat (n : Nat) (h : n < 10) : (digitChar n).toNat = 48 + n := by
  interval_cases n <;> decide

theorem digitChar_isDigit (n : Nat) (h : n < 10) : (digitChar n).isDigit = true := by
  interval_cases n <;> decide

theorem natDigitsAux_congr (f g n : Nat) (hf : n < f) (hg : n < g) :
    natDigitsAux f n = natDigitsAux g n := by
  induction f generalizing g n with
  | zero => omega
  | succ f ih =>
    cases g with
    | zero => omega
    | succ g =>
      simp only [natDigitsAux]
      by_cases h10 : n < 10
      · simp [h10]
      · simp only [if_neg h10]
        rw [ih g (n / 10) (by omega) (by omega)]

theorem natDigits_lt10 (n : Nat) (h : n < 10) : natDigits n = [digitChar n] := by
  unfold natDigits natDigitsAux
  simp [h]

theorem natDigits_ge10 (n : Nat) (h : 10 ≤ n) :
    natDigits n = natDigits (n / 10) ++ [digitChar (n % 10)] := by
  show natDigitsAux (n + 1) n = _
  rw [natDigitsAux, if_neg (by omega),
    natDigitsAux_congr n (n / 10 + 1) (n / 10) (by omega) (by omega)]
  rfl

theorem natDigits_ne_nil (n : Nat) : natDigits n ≠ [] := by
  by_cases h : n < 10
  · rw [natDigits_lt10 n h]; simp
  · rw [natDigits_ge10 n (by omega)]; simp

theorem natDigits_all_digit (n : Nat) : ∀ c ∈ natDigits n, c.isDigit = true := by
  induction n using Nat.strong_induction_on with
  | _ n ih =>
    by_cases h : n < 10
    · rw [natDigits_lt10 n h]
      intro c hc
      simp at hc
      rw [hc]
      exact digitChar_isDigit n h
    · rw [natDigits_ge10 n (by omega)]
      intro c hc
      rcases List.mem_append.mp hc with h1 | h2
      · exact ih (n / 10) (by omega) c h1
      · simp at h2
        rw [h2]
        exact digitChar_isDigit (n % 10) (by omega)

theorem digitsToNat_nil : digitsToNat [] = 0 := rfl

theorem digitsToNat_append_singleton (l : List Char) (c : Char) :
    digitsToNat (l ++ [c]) = digitsToNat l * 10 + (c.toNat - 48) := by
  simp [digitsToNat, List.foldl_append]

theorem digitsToNat_natDigits (n : Nat) : digitsToNat (natDigits n) = n := by
  induction n using Nat.strong_induction_on with
  | _ n ih =>
    by_cases h : n < 10
    · rw [natDigits_lt10 n h]
      simp [digitsToNat, digitChar_toNat n h]
    · rw [natDigits_ge10 n (by omega), digitsToNat_append_singleton,
        ih (n / 10) (by omega), digitChar_toNat (n % 10) (by omega)]
      omega

theorem natDigits_head_ne_zero (n : Nat) :
    0 < n → ∀ c t, natDigits n = c :: t → c ≠ '0' := by
  induction n using Nat.strong_induction_on with
  | _ n ih =>
    intro hn c t heq hc
    by_cases h : n < 10
    · rw [natDigits_lt10 n h] at heq
      injection heq with h1 h2
      have h48 : (digitChar n).toNat = 48 := by rw [h1, hc]; decide
      rw [digitChar_toNat n h] at h48
      omega
    · rw [natDigits_ge10 n (by omega)] at heq
      obtain ⟨c', t', hcons⟩ := List.exists_cons_of_ne_nil (natDigits_ne_nil (n / 10))
      rw [hcons, List.cons_append] at heq
      injection heq with h1 h2
      exact ih (n / 10) (by omega) (by omega) c' t' hcons (h1.trans hc)


theorem digitsToNat_from (a : Nat) (l : List Char) :
    l.foldl (fun x ch => x * 10 + (ch.toNat - 48)) a
      = a * 10 ^ l.length + digitsToNat l := by
  induction l generalizing a with
  | nil => simp [digitsToNat]
  | cons c t ih =>
    simp only [List.foldl_cons, List.length_cons]
    rw [ih]
    have h2 : digitsToNat (c :: t) = (c.toNat - 48) * 10 ^ t.length + digitsToNat t := by
      show List.foldl _ 0 (c :: t) = _
      simp only [List.foldl_cons]
      rw [ih]
      ring_nf
    rw [h2]
    ring

theorem digitsToNat_cons (c : Char) (t : List Char) :
    digitsToNat (c :: t) = (c.toNat - 48) * 10 ^ t.length + digitsToNat t := by
  show List.foldl _ 0 (c :: t) = _
  simp only [List.foldl_cons]
  rw [digitsToNat_from]
  ring_nf

theorem leadingIntAux_digits (ds : List Char) :
    ∀ (tail : List Char) (x : Nat),
      (∀ c ∈ ds, c.isDigit = true) →
      (∀ c, tail.head? = some c → c.isDigit = false) →
      x * 10 ^ ds.length + digitsToNat ds ≤ 2 ^ 63 →
      leadingIntAux (ds ++ tail) x
        = .ok (x * 10 ^ ds.length + digitsToNat ds, tail) := by
  induction ds with
  | nil =>
    intro tail x _ htail _
    simp only [List.nil_append, List.length_nil, pow_zero, Nat.mul_one,
      digitsToNat_nil, Nat.add_zero]
    cases tail with
    | nil => simp [leadingIntAux]
    | cons c t => simp [leadingIntAux, htail c rfl]
  | cons c t ih =>
    intro tail x hds htail hbound
    have hc : c.isDigit = true := hds c (List.mem_cons_self c t)
    have hyval : (x * 10 + (c.toNat - 48)) * 10 ^ t.length + digitsToNat t
        = x * 10 ^ (c :: t).length + digitsToNat (c :: t) := by
      rw [digitsToNat_cons, List.length_cons, pow_succ]
      ring
    have hy63 : x * 10 + (c.toNat - 48) ≤ 2 ^ 63 := by
      have h1 : (x * 10 + (c.toNat - 48)) * 10 ^ t.length + digitsToNat t ≤ 2 ^ 63 := by
        rw [hyval]; exact hbound
      have h2 : x * 10 + (c.toNat - 48)
          ≤ (x * 10 + (c.toNat - 48)) * 10 ^ t.length :=
        Nat.le_mul_of_pos_right _ (Nat.pos_pow_of_pos _ (by omega))
      omega
    have hx : ¬ x > 2 ^ 63 / 10 := by
      have hx10 : x * 10 ≤ 2 ^ 63 := by omega
      have := (Nat.le_div_iff_mul_le (by omega : 0 < 10)).mpr hx10
      omega
    simp only [List.cons_append, leadingIntAux, hc, if_true, if_neg hx,
      if_neg (by omega : ¬ x * 10 + (c.toNat - 48) > 2 ^ 63)]
    show leadingIntAux (t ++ tail) (x * 10 + (c.toNat - 48)) = _
    rw [ih tail (x * 10 + (c.toNat - 48))
      (fun ch hm => hds ch (List.mem_cons_of_mem c hm)) htail
      (by rw [hyval]; exact hbound)]
    rw [hyval]

theorem leadingInt_digits (ds tail : List Char)
    (hds : ∀ c ∈ ds, c.isDigit = true)
    (htail : ∀ c, tail.head? = some c → c.isDigit = false)
    (hbound : digitsToNat ds ≤ 2 ^ 63) :
    leadingInt (ds ++ tail) = .ok (digitsToNat ds, tail) := by
  unfold leadingInt
  rw [leadingIntAux_digits ds tail 0 hds htail (by simpa using hbound)]
  simp

theorem leadingInt_natDigits (n : Nat) (tail : List Char)
    (hn : n ≤ 2 ^ 63)
    (htail : ∀ c, tail.head? = some c → c.isDigit = false) :
    leadingInt (natDigits n ++ tail) = .ok (n, tail) := by
  rw [leadingInt_digits (natDigits n) tail (natDigits_all_digit n) htail
    (by rw [digitsToNat_natDigits]; exact hn)]
  rw [digitsToNat_natDigits]

theorem leadingFractionAux_digits (ds : List Char) :
    ∀ (tail : List Char) (x scale : Nat),
      (∀ c ∈ ds, c.isDigit = true) →
      (∀ c, tail.head? = some c → c.isDigit = false) →
      x * 10 ^ ds.length + digitsToNat ds ≤ 2 ^ 63 - 1 →
      leadingFractionAux (ds ++ tail) x scale false
        = (x * 10 ^ ds.length + digitsToNat ds, scale * 10 ^ ds.length, tail) := by
  induction ds with
  | nil =>
    intro tail x scale _ htail _
    simp only [List.nil_append, List.length_nil, pow_zero, Nat.mul_one,
      digitsToNat_nil, Nat.add_zero]
    cases tail with
    | nil => simp [leadingFractionAux]
    | cons c t => simp [leadingFractionAux, htail c rfl]
  | cons c t ih =>
    intro tail x scale hds htail hbound
    have hc : c.isDigit = true := hds c (List.mem_cons_self c t)
    have hyval : (x * 10 + (c.toNat - 48)) * 10 ^ t.length + digitsToNat t
        = x * 10 ^ (c :: t).length + digitsToNat (c :: t) := by
      rw [digitsToNat_cons, List.length_cons, pow_succ]
      ring
    have hy63 : x * 10 + (c.toNat - 48) ≤ 2 ^ 63 - 1 := by
      have h1 : (x * 10 + (c.toNat - 48)) * 10 ^ t.length + digitsToNat t ≤ 2 ^ 63 - 1 := by
        rw [hyval]; exact hbound
      have h2 : x * 10 + (c.toNat - 48)
          ≤ (x * 10 + (c.toNat - 48)) * 10 ^ t.length :=
        Nat.le_mul_of_pos_right _ (Nat.pos_pow_of_pos _ (by omega))
      omega
    have hx : ¬ x > (2 ^ 63 - 1) / 10 := by
      have hx10 : x * 10 ≤ 2 ^ 63 - 1 := by omega
      have := (Nat.le_div_iff_mul_le (by omega : 0 < 10)).mpr hx10
      omega
    simp only [List.cons_append, leadingFractionAux, hc, if_true,
      Bool.false_eq_true, if_false, if_neg hx,
      if_neg (by omega : ¬ x * 10 + (c.toNat - 48) > 2 ^ 63)]
    show leadingFractionAux (t ++ tail) (x * 10 + (c.toNat - 48)) (scale * 10) false = _
    rw [ih tail (x * 10 + (c.toNat - 48)) (scale * 10)
      (fun ch hm => hds ch (List.mem_cons_of_mem c hm)) htail
      (by rw [hyval]; exact hbound)]
    rw [hyval, List.length_cons, pow_succ]
    ring_nf

theorem leadingFraction_digits (ds tail : List Char)
    (hds : ∀ c ∈ ds, c.isDigit = true)
    (htail : ∀ c, tail.head? = some c → c.isDigit = false)
    (hbound : digitsToNat ds ≤ 2 ^ 63 - 1) :
    leadingFraction (ds ++ tail) = (digitsToNat ds, 10 ^ ds.length, tail) := by
  unfold leadingFraction
  rw [leadingFractionAux_digits ds tail 0 1 hds htail (by simpa using hbound)]
  simp

theorem takeWhile_append_all (p : Char → Bool) (l m : List Char)
    (hl : ∀ c ∈ l, p c = true) (hm : ∀ c, m.head? = some c → p c = false) :
    (l ++ m).takeWhile p = l ∧ (l ++ m).dropWhile p = m := by
  induction l with
  | nil =>
    simp only [List.nil_append]
    cases m with
    | nil => simp
    | cons c t => simp [List.takeWhile_cons, List.dropWhile_cons, hm c rfl]
  | cons c t ih =>
    have hc := hl c (List.mem_cons_self c t)
    obtain ⟨h1, h2⟩ := ih (fun ch hm2 => hl ch (List.mem_cons_of_mem c hm2))
    simp [List.takeWhile_cons, List.dropWhile_cons, hc, h1, h2]

theorem skipWSl_cons_not_ws (c : Char) (t : List Char) (h : jsonWS c = false) :
    skipWSl (c :: t) = c :: t := by
  simp [skipWSl, List.dropWhile_cons, h]

/-- Zero-padded low `p` decimal digits of `v`, most significant first: the
digit block that `fmtFrac`'s loop ranges over. -/
def padDigits : Nat → Nat → List Char
  | 0, _ => []
  | p + 1, v => padDigits p (v / 10) ++ [digitChar (v % 10)]

/-- Remove trailing `'0'` characters. -/
def dropTrailingZeros (l : List Char) : List Char :=
  (l.reverse.dropWhile (fun c => c == '0')).reverse

theorem padDigits_length (p : Nat) : ∀ v, (padDigits p v).length = p := by
  induction p with
  | zero => intro v; rfl
  | succ p ih => intro v; simp [padDigits, ih]

theorem padDigits_all_digit (p : Nat) : ∀ v c, c ∈ padDigits p v → c.isDigit = true := by
  induction p with
  | zero => intro v c hc; simp [padDigits] at hc
  | succ p ih =>
    intro v c hc
    rcases List.mem_append.mp hc with h1 | h2
    · exact ih (v / 10) c h1
    · simp at h2
      rw [h2]
      exact digitChar_isDigit (v % 10) (by omega)

theorem pow10_succ_mod (p v : Nat) :
    v % 10 ^ (p + 1) = v % 10 + 10 * (v / 10 % 10 ^ p) := by
  rw [show (10 : Nat) ^ (p + 1) = 10 * 10 ^ p from by rw [pow_succ]; ring]
  exact Nat.mod_mul

theorem digitsToNat_padDigits (p : Nat) : ∀ v, digitsToNat (padDigits p v) = v % 10 ^ p := by
  induction p with
  | zero => intro v; simp [padDigits, digitsToNat, Nat.mod_one]
  | succ p ih =>
    intro v
    simp only [padDigits, digitsToNat_append_singleton, ih,
      digitChar_toNat (v % 10) (by omega)]
    have hmm := pow10_succ_mod p v
    omega

theorem padDigits_mod (p : Nat) : ∀ v, padDigits p v = padDigits p (v % 10 ^ p) := by
  induction p with
  | zero => intro v; rfl
  | succ p ih =>
    intro v
    have hmm := pow10_succ_mod p v
    have hlt : v / 10 % 10 ^ p < 10 ^ p := Nat.mod_lt _ (Nat.pos_pow_of_pos _ (by omega))
    have hdiv : v % 10 ^ (p + 1) / 10 = v / 10 % 10 ^ p := by omega
    have hmod : v % 10 ^ (p + 1) % 10 = v % 10 := by omega
    show padDigits p (v / 10) ++ [digitChar (v % 10)]
        = padDigits p (v % 10 ^ (p + 1) / 10) ++ [digitChar (v % 10 ^ (p + 1) % 10)]
    rw [hdiv, hmod, ih (v / 10)]

theorem dtz_append_zero (l : List Char) :
    dropTrailingZeros (l ++ ['0']) = dropTrailingZeros l := by
  simp [dropTrailingZeros, List.reverse_append, List.dropWhile_cons]

theorem dtz_append_ne (l : List Char) (c : Char) (h : ¬ c = '0') :
    dropTrailingZeros (l ++ [c]) = l ++ [c] := by
  simp [dropTrailingZeros, List.reverse_append, List.dropWhile_cons, h]

theorem dtz_padDigits_zero (p : Nat) : dropTrailingZeros (padDigits p 0) = [] := by
  induction p with
  | zero => rfl
  | succ p ih =>
    show dropTrailingZeros (padDigits p (0 / 10) ++ [digitChar (0 % 10)]) = []
    rw [show (0 : Nat) / 10 = 0 by omega, show digitChar (0 % 10) = '0' by decide,
      dtz_append_zero, ih]

theorem digitChar_ne_zero_char (n : Nat) (h1 : n < 10) (h2 : n ≠ 0) :
    ¬ digitChar n = '0' := by
  intro hc
  have h48 : (digitChar n).toNat = 48 := by rw [hc]; decide
  rw [digitChar_toNat n h1] at h48
  omega

theorem fmtFracGo_true (p : Nat) : ∀ v, fmtFracGo p v true = (padDigits p v, true) := by
  induction p with
  | zero => intro v; rfl
  | succ p ih => intro v; simp [fmtFracGo, padDigits, ih]

theorem fmtFracGo_false (p : Nat) : ∀ v,
    fmtFracGo p v false
      = (dropTrailingZeros (padDigits p v), decide (v % 10 ^ p ≠ 0)) := by
  induction p with
  | zero => intro v; simp [fmtFracGo, padDigits, dropTrailingZeros, Nat.mod_one]
  | succ p ih =>
    intro v
    have hmm := pow10_succ_mod p v
    by_cases h : v % 10 = 0
    · have hflag : (v % 10 ^ (p + 1) = 0) = (v / 10 % 10 ^ p = 0) := by
        apply propext
        omega
      simp only [fmtFracGo, h, decide_not, ne_eq, decide_True, Bool.not_true,
        Bool.or_false, ih (v / 10)]
      simp [padDigits, h, show digitChar 0 = '0' from by decide,
        dtz_append_zero, hflag]
    · have hflag : (v % 10 ^ (p + 1) = 0) = False := by
        apply propext
        simp only [iff_false]
        omega
      simp only [fmtFracGo, h, decide_not, ne_eq, decide_False, Bool.not_false,
        Bool.or_true, fmtFracGo_true]
      simp [padDigits,
        dtz_append_ne (padDigits p (v / 10)) (digitChar (v % 10))
          (digitChar_ne_zero_char (v % 10) (by omega) h),
        hflag]

theorem fmtFrac_spec (v p : Nat) :
    fmtFrac v p
      = ((if v % 10 ^ p = 0 then []
          else '.' :: dropTrailingZeros (padDigits p v)), v / 10 ^ p) := by
  unfold fmtFrac
  rw [fmtFracGo_false]
  by_cases h : v % 10 ^ p = 0
  · simp only [h, ne_eq, decide_not, decide_True, Bool.not_true, if_true]
    rw [padDigits_mod p v, h, dtz_padDigits_zero]
    simp
  · simp [h]

theorem strip_spec (p : Nat) : ∀ r : Nat, r ≠ 0 → r < 10 ^ p →
    ∃ z, z ≤ p ∧ 10 ^ z ∣ r ∧
      dropTrailingZeros (padDigits p r) ≠ [] ∧
      (∀ c ∈ dropTrailingZeros (padDigits p r), c.isDigit = true) ∧
      (dropTrailingZeros (padDigits p r)).length = p - z ∧
      digitsToNat (dropTrailingZeros (padDigits p r)) = r / 10 ^ z := by
  induction p with
  | zero =>
    intro r h0 h1
    simp at h1
    omega
  | succ p ih =>
    intro r h0 h1
    have hps : (10 : Nat) ^ (p + 1) = 10 * 10 ^ p := by rw [pow_succ]; ring
    by_cases h : r % 10 = 0
    · have hr10 : r / 10 ≠ 0 := by omega
      have hlt : r / 10 < 10 ^ p := by omega
      obtain ⟨z, hz, hdvd, hne, hdig, hlen, hval⟩ := ih (r / 10) hr10 hlt
      have hpd : dropTrailingZeros (padDigits (p + 1) r)
          = dropTrailingZeros (padDigits p (r / 10)) := by
        show dropTrailingZeros (padDigits p (r / 10) ++ [digitChar (r % 10)]) = _
        rw [h, show digitChar 0 = '0' from by decide, dtz_append_zero]
      refine ⟨z + 1, by omega, ?_, by rw [hpd]; exact hne, by rw [hpd]; exact hdig,
        by rw [hpd, hlen]; omega, ?_⟩
      · obtain ⟨t, ht⟩ := hdvd
        refine ⟨t, ?_⟩
        have hr : r = 10 * (r / 10) := by omega
        rw [hr, ht, pow_succ]
        ring
      · rw [hpd, hval, Nat.div_div_eq_div_mul]
        congr 1
        rw [pow_succ]
        ring
    · have hd : ¬ digitChar (r % 10) = '0' :=
        digitChar_ne_zero_char (r % 10) (by omega) h
      have hpd : dropTrailingZeros (padDigits (p + 1) r) = padDigits (p + 1) r := by
        show dropTrailingZeros (padDigits p (r / 10) ++ [digitChar (r % 10)]) = _
        rw [dtz_append_ne _ _ hd]
        rfl
      refine ⟨0, by omega, one_dvd _, ?_, ?_, ?_, ?_⟩
      · rw [hpd]
        show padDigits p (r / 10) ++ [digitChar (r % 10)] ≠ []
        simp
      · rw [hpd]
        exact fun c hc => padDigits_all_digit (p + 1) r c hc
      · rw [hpd, padDigits_length]
        omega
      · rw [hpd, digitsToNat_padDigits, pow_zero, Nat.div_one, Nat.mod_eq_of_lt h1]

theorem unitMap_pos (l : List Char) (u : Nat) : unitMap l = some u → 0 < u := by
  unfold unitMap
  split <;> intro h <;> first
    | (injection h with h2; omega)
    | cases h

theorem unitMap_unitChars (l : List Char) (u : Nat) :
    unitMap l = some u → ∀ c ∈ l, isUnitChar c = true := by
  unfold unitMap
  split <;> intro h c hc <;> first
    | (simp only [List.mem_cons, List.not_mem_nil, or_false] at hc
       rcases hc with rfl | rfl <;> decide)
    | (simp only [List.mem_cons, List.not_mem_nil, or_false] at hc
       subst hc
       decide)
    | cases h

theorem unitMap_ne_nil (l : List Char) (u : Nat) (h : unitMap l = some u) : l ≠ [] := by
  intro he
  rw [he] at h
  exact Option.noConfusion (show (none : Option Nat) = some u from h)

theorem isUnitChar_not_digit (c : Char) (h : isUnitChar c = true) : c.isDigit = false := by
  unfold isUnitChar at h
  cases hd : c.isDigit
  · rfl
  · rw [hd] at h
    simp at h

theorem isUnitChar_ne_dot (c : Char) (h : isUnitChar c = true) : ¬ c = '.' := by
  intro he
  rw [he] at h
  simp [isUnitChar] at h

theorem durLoop_nil (orig : String) (fuel d : Nat) : durLoop orig fuel [] d = .ok d := by
  cases fuel <;> rfl

theorem durLoop_cons (orig : String) (fuel : Nat) (c : Char) (cs : List Char) (d : Nat) :
    durLoop orig (fuel + 1) (c :: cs) d
      = match durIter orig c cs d with
        | .error e => .error e
        | .ok (d2, s4) => durLoop orig fuel s4 d2 := rfl

theorem head_append_unit (unitCs rest : List Char) (u0 : Char) (us : List Char)
    (hu : unitCs = u0 :: us) (hu0 : isUnitChar u0 = true) :
    ∀ c, (unitCs ++ rest).head? = some c → c.isDigit = false := by
  intro c hc
  rw [hu] at hc
  simp only [List.cons_append, List.head?_cons, Option.some.injEq] at hc
  rw [← hc]
  exact isUnitChar_not_digit u0 hu0

theorem durIter_spec_nofrac (orig : String) (a U : Nat) (unitCs rest : List Char)
    (d : Nat) (c0 : Char) (ds : List Char)
    (hnd : natDigits a = c0 :: ds)
    (hU : unitMap unitCs = some U)
    (hrest : ∀ c, rest.head? = some c → isUnitChar c = false)
    (hsum : d + a * U ≤ 2 ^ 63) :
    durIter orig c0 (ds ++ (unitCs ++ rest)) d = .ok (d + a * U, rest) := by
  have hUpos : 0 < U := unitMap_pos unitCs U hU
  have hunit : ∀ c ∈ unitCs, isUnitChar c = true := unitMap_unitChars unitCs U hU
  have hne : unitCs ≠ [] := unitMap_ne_nil unitCs U hU
  obtain ⟨u0, us, hu⟩ := List.exists_cons_of_ne_nil hne
  have hu0 : isUnitChar u0 = true := hunit u0 (by rw [hu]; exact List.mem_cons_self _ _)
  have hc0 : c0.isDigit = true :=
    natDigits_all_digit a c0 (by rw [hnd]; exact List.mem_cons_self _ _)
  have haU : a * U ≤ 2 ^ 63 := by omega
  have ha : a ≤ 2 ^ 63 := by
    have := Nat.le_mul_of_pos_right a hUpos
    omega
  have htail : ∀ c, (unitCs ++ rest).head? = some c → c.isDigit = false :=
    head_append_unit unitCs rest u0 us hu hu0
  have hLI : leadingInt (c0 :: (ds ++ (unitCs ++ rest))) = .ok (a, unitCs ++ rest) := by
    have h1 : c0 :: (ds ++ (unitCs ++ rest)) = natDigits a ++ (unitCs ++ rest) := by
      rw [hnd]
      rfl
    rw [h1]
    exact leadingInt_natDigits a (unitCs ++ rest) ha htail
  have hpre : ((unitCs ++ rest).length != (c0 :: (ds ++ (unitCs ++ rest))).length) = true := by
    simp only [bne_iff_ne, ne_eq, List.length_cons, List.length_append]
    omega
  have hnodot : ¬ (unitCs ++ rest).head? = some '.' := by
    rw [hu]
    simp only [List.cons_append, List.head?_cons, Option.some.injEq]
    exact isUnitChar_ne_dot u0 hu0
  have hspan := takeWhile_append_all isUnitChar unitCs rest hunit hrest
  have hcheck : ¬ a > 2 ^ 63 / U := by
    have := (Nat.le_div_iff_mul_le hUpos).mpr haU
    omega
  have hd2 : ¬ d + a * U > 2 ^ 63 := by omega
  simp only [durIter, hc0, Bool.or_true, if_true, hLI, hpre, if_neg hnodot,
    Bool.not_true, Bool.not_false, Bool.false_and, Bool.and_false, if_false,
    hspan.1, hspan.2, if_neg hne, hU, if_neg hcheck, gt_iff_lt, Nat.lt_irrefl,
    false_and, if_neg hd2]
  simp [if_neg hd2]

theorem durIter_spec_frac (orig : String) (q U : Nat) (fds unitCs rest : List Char)
    (d : Nat) (c0 : Char) (ds : List Char)
    (hnd : natDigits q = c0 :: ds)
    (hfds : ∀ c ∈ fds, c.isDigit = true)
    (hfne : fds ≠ [])
    (hfbound : digitsToNat fds ≤ 2 ^ 63 - 1)
    (hfpos : 0 < digitsToNat fds)
    (hU : unitMap unitCs = some U)
    (hrest : ∀ c, rest.head? = some c → isUnitChar c = false)
    (hsum : d + (q * U + digitsToNat fds * U / 10 ^ fds.length) ≤ 2 ^ 63) :
    durIter orig c0 (ds ++ ('.' :: (fds ++ (unitCs ++ rest)))) d
      = .ok (d + (q * U + digitsToNat fds * U / 10 ^ fds.length), rest) := by
  have hUpos : 0 < U := unitMap_pos unitCs U hU
  have hunit : ∀ c ∈ unitCs, isUnitChar c = true := unitMap_unitChars unitCs U hU
  have hne : unitCs ≠ [] := unitMap_ne_nil unitCs U hU
  obtain ⟨u0, us, hu⟩ := List.exists_cons_of_ne_nil hne
  have hu0 : isUnitChar u0 = true := hunit u0 (by rw [hu]; exact List.mem_cons_self _ _)
  have hc0 : c0.isDigit = true :=
    natDigits_all_digit q c0 (by rw [hnd]; exact List.mem_cons_self _ _)
  have hsum2 : q * U + digitsToNat fds * U / 10 ^ fds.length ≤ 2 ^ 63 :=
    le_trans (Nat.le_add_left _ d) hsum
  have hqU : q * U ≤ 2 ^ 63 := le_trans (Nat.le_add_right _ _) hsum2
  have hq : q ≤ 2 ^ 63 := by
    have := Nat.le_mul_of_pos_right q hUpos
    omega
  have htail : ∀ c, (unitCs ++ rest).head? = some c → c.isDigit = false :=
    head_append_unit unitCs rest u0 us hu hu0
  have hLI : leadingInt (c0 :: (ds ++ ('.' :: (fds ++ (unitCs ++ rest)))))
      = .ok (q, '.' :: (fds ++ (unitCs ++ rest))) := by
    have h1 : c0 :: (ds ++ ('.' :: (fds ++ (unitCs ++ rest))))
        = natDigits q ++ ('.' :: (fds ++ (unitCs ++ rest))) := by
      rw [hnd]
      rfl
    rw [h1]
    exact leadingInt_natDigits q _ hq (by intro c hc; injection hc with h2; rw [← h2]; rfl)
  have hLF : leadingFraction (fds ++ (unitCs ++ rest))
      = (digitsToNat fds, 10 ^ fds.length, unitCs ++ rest) :=
    leadingFraction_digits fds (unitCs ++ rest) hfds htail hfbound
  have hpre : (('.' :: (fds ++ (unitCs ++ rest))).length
      != (c0 :: (ds ++ ('.' :: (fds ++ (unitCs ++ rest))))).length) = true := by
    simp only [bne_iff_ne, ne_eq, List.length_cons, List.length_append]
    omega
  have hpost : ((unitCs ++ rest).length != (fds ++ (unitCs ++ rest)).length) = true := by
    simp only [bne_iff_ne, ne_eq, List.length_append]
    have : fds.length ≠ 0 := fun h0 => hfne (List.length_eq_zero.mp h0)
    omega
  have hspan := takeWhile_append_all isUnitChar unitCs rest hunit hrest
  have hcheck : ¬ q > 2 ^ 63 / U := by
    have := (Nat.le_div_iff_mul_le hUpos).mpr hqU
    omega
  have hv3 : ¬ (0 < digitsToNat fds ∧
      q * U + digitsToNat fds * U / 10 ^ fds.length > 2 ^ 63) :=
    fun hcon => absurd hcon.2 (Nat.not_lt.mpr hsum2)
  have hd2 : ¬ d + (q * U + digitsToNat fds * U / 10 ^ fds.length) > 2 ^ 63 :=
    Nat.not_lt.mpr hsum
  simp only [durIter, hc0, Bool.or_true, if_true, hLI, hpre,
    List.head?_cons, Option.some.injEq, List.tail_cons, hLF, hpost,
    Bool.not_true, Bool.false_and, Bool.and_false, if_false,
    hspan.1, hspan.2, if_neg hne, hU, if_neg hcheck, gt_iff_lt, hfpos, if_pos,
    if_neg hv3, if_neg hd2]
  simp [Nat.not_lt.mpr hsum2]
  exact hsum2.trans (by norm_num)

theorem frac_exact (p z r : Nat) (hz : z ≤ p) (hdvd : 10 ^ z ∣ r) :
    r / 10 ^ z * 10 ^ p / 10 ^ (p - z) = r := by
  obtain ⟨t, ht⟩ := hdvd
  subst ht
  rw [Nat.mul_div_cancel_left t (Nat.pos_pow_of_pos z (by omega))]
  rw [show (10 : Nat) ^ p = 10 ^ (p - z) * 10 ^ z from by rw [← pow_add]; congr 1; omega]
  rw [show t * (10 ^ (p - z) * 10 ^ z) = t * 10 ^ z * 10 ^ (p - z) from by ring]
  rw [Nat.mul_div_cancel _ (Nat.pos_pow_of_pos _ (by omega))]
  ring

theorem div_pow_pos (z r : Nat) (h0 : r ≠ 0) (hdvd : 10 ^ z ∣ r) : 0 < r / 10 ^ z := by
  obtain ⟨t, ht⟩ := hdvd
  subst ht
  rw [Nat.mul_div_cancel_left t (Nat.pos_pow_of_pos z (by omega))]
  rcases Nat.eq_zero_or_pos t with h | h
  · subst h
    simp at h0
  · exact h

theorem digit_not_unitChar (c : Char) (h : c.isDigit = true) : isUnitChar c = false := by
  simp [isUnitChar, h]

theorem head_natDigits_append (a : Nat) (rest : List Char) :
    ∀ c, (natDigits a ++ rest).head? = some c → isUnitChar c = false := by
  obtain ⟨c0, ds, hnd⟩ := List.exists_cons_of_ne_nil (natDigits_ne_nil a)
  intro c hc
  rw [hnd] at hc
  simp only [List.cons_append, List.head?_cons, Option.some.injEq] at hc
  rw [← hc]
  exact digit_not_unitChar c0
    (natDigits_all_digit a c0 (by rw [hnd]; exact List.mem_cons_self _ _))

theorem durLoop_step_nofrac (orig : String) (fuel : Nat) (a U : Nat)
    (unitCs rest : List Char) (d : Nat)
    (hU : unitMap unitCs = some U)
    (hrest : ∀ c, rest.head? = some c → isUnitChar c = false)
    (hsum : d + a * U ≤ 2 ^ 63) :
    durLoop orig (fuel + 1) ((natDigits a ++ unitCs) ++ rest) d
      = durLoop orig fuel rest (d + a * U) := by
  obtain ⟨c0, ds, hnd⟩ := List.exists_cons_of_ne_nil (natDigits_ne_nil a)
  have hshape : (natDigits a ++ unitCs) ++ rest = c0 :: (ds ++ (unitCs ++ rest)) := by
    rw [hnd]
    simp
  rw [hshape, durLoop_cons,
    durIter_spec_nofrac orig a U unitCs rest d c0 ds hnd hU hrest hsum]

theorem durLoop_step_frac (orig : String) (fuel : Nat) (q U : Nat)
    (fds unitCs rest : List Char) (d : Nat)
    (hfds : ∀ c ∈ fds, c.isDigit = true)
    (hfne : fds ≠ [])
    (hfbound : digitsToNat fds ≤ 2 ^ 63 - 1)
    (hfpos : 0 < digitsToNat fds)
    (hU : unitMap unitCs = some U)
    (hrest : ∀ c, rest.head? = some c → isUnitChar c = false)
    (hsum : d + (q * U + digitsToNat fds * U / 10 ^ fds.length) ≤ 2 ^ 63) :
    durLoop orig (fuel + 1) ((natDigits q ++ '.' :: fds ++ unitCs) ++ rest) d
      = durLoop orig fuel rest
          (d + (q * U + digitsToNat fds * U / 10 ^ fds.length)) := by
  obtain ⟨c0, ds, hnd⟩ := List.exists_cons_of_ne_nil (natDigits_ne_nil q)
  have hshape : (natDigits q ++ '.' :: fds ++ unitCs) ++ rest
      = c0 :: (ds ++ ('.' :: (fds ++ (unitCs ++ rest)))) := by
    rw [hnd]
    simp
  rw [hshape, durLoop_cons,
    durIter_spec_frac orig q U fds unitCs rest d c0 ds hnd hfds hfne hfbound hfpos
      hU hrest hsum]

theorem durLoop_numfrac (orig : String) (fuel : Nat) (Q R p : Nat)
    (unitCs rest : List Char) (d : Nat)
    (hp : unitMap unitCs = some (10 ^ p))
    (hR : R < 10 ^ p) (hp9 : p ≤ 9)
    (hrest : ∀ c, rest.head? = some c → isUnitChar c = false)
    (hsum : d + (Q * 10 ^ p + R) ≤ 2 ^ 63) :
    durLoop orig (fuel + 1)
      ((natDigits Q
        ++ (if R = 0 then [] else '.' :: dropTrailingZeros (padDigits p R))
        ++ unitCs) ++ rest) d
      = durLoop orig fuel rest (d + (Q * 10 ^ p + R)) := by
  by_cases hR0 : R = 0
  · subst hR0
    simp only [eq_self_iff_true, if_true, List.append_nil]
    rw [durLoop_step_nofrac orig fuel Q (10 ^ p) unitCs rest d hp hrest (by omega)]
    rw [show Q * 10 ^ p + 0 = Q * 10 ^ p from by omega]
  · obtain ⟨z, hz, hdvd, hne, hdig, hlen, hval⟩ := strip_spec p R hR0 hR
    rw [if_neg hR0]
    have hcontrib : digitsToNat (dropTrailingZeros (padDigits p R)) * 10 ^ p
        / 10 ^ (dropTrailingZeros (padDigits p R)).length = R := by
      rw [hval, hlen]
      exact frac_exact p z R hz hdvd
    have hfbound : digitsToNat (dropTrailingZeros (padDigits p R)) ≤ 2 ^ 63 - 1 := by
      rw [hval]
      have h1 : R / 10 ^ z ≤ R := Nat.div_le_self _ _
      have h2 : (10 : Nat) ^ p ≤ 10 ^ 9 := Nat.pow_le_pow_right (by omega) hp9
      have h3 : (10 : Nat) ^ 9 ≤ 2 ^ 63 - 1 := by norm_num
      omega
    have hfpos : 0 < digitsToNat (dropTrailingZeros (padDigits p R)) := by
      rw [hval]
      exact div_pow_pos z R hR0 hdvd
    rw [durLoop_step_frac orig fuel Q (10 ^ p) (dropTrailingZeros (padDigits p R))
      unitCs rest d hdig hne hfbound hfpos hp hrest (by rw [hcontrib]; exact hsum)]
    rw [hcontrib]

theorem durationString_eq_ns (d : Int) (h0 : ¬ d.natAbs = 0) (h1 : d.natAbs < 1000) :
    durationString d
      = String.mk (if d < 0 then '-' :: (natDigits d.natAbs ++ ['n', 's'])
                   else natDigits d.natAbs ++ ['n', 's']) := by
  simp only [durationString]
  rw [if_pos (show d.natAbs < 1000000000 from by omega), if_neg h0, if_pos h1]

theorem durationString_eq_us (d : Int) (h1 : 1000 ≤ d.natAbs) (h2 : d.natAbs < 1000000) :
    durationString d
      = String.mk
          (if d < 0 then
            '-' :: (natDigits (d.natAbs / 10 ^ 3)
              ++ ((if d.natAbs % 10 ^ 3 = 0 then []
                   else '.' :: dropTrailingZeros (padDigits 3 (d.natAbs % 10 ^ 3)))
                ++ ['µ', 's']))
          else natDigits (d.natAbs / 10 ^ 3)
              ++ ((if d.natAbs % 10 ^ 3 = 0 then []
                   else '.' :: dropTrailingZeros (padDigits 3 (d.natAbs % 10 ^ 3)))
                ++ ['µ', 's'])) := by
  simp only [durationString]
  rw [if_pos (show d.natAbs < 1000000000 from by omega),
    if_neg (show ¬ d.natAbs = 0 from by omega),
    if_neg (show ¬ d.natAbs < 1000 from by omega), if_pos h2, fmtFrac_spec,
    padDigits_mod 3 d.natAbs]
  simp [List.append_assoc]

theorem durationString_eq_ms (d : Int) (h1 : 1000000 ≤ d.natAbs)
    (h2 : d.natAbs < 1000000000) :
    durationString d
      = String.mk
          (if d < 0 then
            '-' :: (natDigits (d.natAbs / 10 ^ 6)
              ++ ((if d.natAbs % 10 ^ 6 = 0 then []
                   else '.' :: dropTrailingZeros (padDigits 6 (d.natAbs % 10 ^ 6)))
                ++ ['m', 's']))
          else natDigits (d.natAbs / 10 ^ 6)
              ++ ((if d.natAbs % 10 ^ 6 = 0 then []
                   else '.' :: dropTrailingZeros (padDigits 6 (d.natAbs % 10 ^ 6)))
                ++ ['m', 's'])) := by
  simp only [durationString]
  rw [if_pos h2, if_neg (show ¬ d.natAbs = 0 from by omega),
    if_neg (show ¬ d.natAbs < 1000 from by omega),
    if_neg (show ¬ d.natAbs < 1000000 from by omega), fmtFrac_spec,
    padDigits_mod 6 d.natAbs]
  simp [List.append_assoc]

theorem durationString_eq_s (d : Int) (h1 : 1000000000 ≤ d.natAbs) :
    durationString d
      = String.mk
          (if d < 0 then
            '-' ::
              ((if d.natAbs / 10 ^ 9 / 60 > 0 then
                  (if d.natAbs / 10 ^ 9 / 60 / 60 > 0 then
                    natDigits (d.natAbs / 10 ^ 9 / 60 / 60) ++ ['h'] else [])
                  ++ (natDigits (d.natAbs / 10 ^ 9 / 60 % 60) ++ ['m'])
                  ++ (natDigits (d.natAbs / 10 ^ 9 % 60)
                    ++ ((if d.natAbs % 10 ^ 9 = 0 then []
                         else '.' :: dropTrailingZeros (padDigits 9 (d.natAbs % 10 ^ 9)))
                      ++ ['s']))
                else
                  natDigits (d.natAbs / 10 ^ 9 % 60)
                    ++ ((if d.natAbs % 10 ^ 9 = 0 then []
                         else '.' :: dropTrailingZeros (padDigits 9 (d.natAbs % 10 ^ 9)))
                      ++ ['s'])))
          else
            (if d.natAbs / 10 ^ 9 / 60 > 0 then
                (if d.natAbs / 10 ^ 9 / 60 / 60 > 0 then
                  natDigits (d.natAbs / 10 ^ 9 / 60 / 60) ++ ['h'] else [])
                ++ (natDigits (d.natAbs / 10 ^ 9 / 60 % 60) ++ ['m'])
                ++ (natDigits (d.natAbs / 10 ^ 9 % 60)
                  ++ ((if d.natAbs % 10 ^ 9 = 0 then []
                       else '.' :: dropTrailingZeros (padDigits 9 (d.natAbs % 10 ^ 9)))
                    ++ ['s']))
              else
                natDigits (d.natAbs / 10 ^ 9 % 60)
                  ++ ((if d.natAbs % 10 ^ 9 = 0 then []
                       else '.' :: dropTrailingZeros (padDigits 9 (d.natAbs % 10 ^ 9)))
                    ++ ['s']))) := by
  simp only [durationString]
  rw [if_neg (show ¬ d.natAbs < 1000000000 from by omega), fmtFrac_spec,
    padDigits_mod 9 d.natAbs]
  simp [List.append_assoc]

theorem toList_mk (l : List Char) : (String.mk l).toList = l := rfl

theorem goParseDuration_of_core (d : Int) (core : List Char)
    (hhead : ∀ c, core.head? = some c → c.isDigit = true)
    (hne : core ≠ []) (hn0 : core ≠ ['0'])
    (hloop : ∀ orig : String, durLoop orig (core.length + 1) core 0 = .ok d.natAbs)
    (hlo : -(2 ^ 63) ≤ d) (hhi : d < 2 ^ 63) (hd0 : d ≠ 0) :
    goParseDuration (String.mk (if d < 0 then '-' :: core else core)) = .ok d := by
  obtain ⟨c0, t0, hc0⟩ := List.exists_cons_of_ne_nil hne
  have hcd : c0.isDigit = true := hhead c0 (by rw [hc0]; rfl)
  have h48 := (char_isDigit_iff c0).mp hcd
  have hminus : ¬ c0 = '-' := by
    intro he
    rw [he] at h48
    exact absurd h48 (by decide)
  have hplus : ¬ c0 = '+' := by
    intro he
    rw [he] at h48
    exact absurd h48 (by decide)
  by_cases hneg : d < 0
  · rw [if_pos hneg]
    simp only [goParseDuration, toList_mk, List.head?_cons, List.tail_cons]
    have hsel : (if (some '-' == some '-' || some '-' == some '+') = true
        then core else '-' :: core) = core := by simp
    rw [hsel, if_neg hn0, if_neg hne, hloop]
    have hcast : -(d.natAbs : Int) = d := by omega
    simp [hcast]
    rw [abs_of_nonpos (by omega : d ≤ 0)]
    ring
  · rw [if_neg hneg]
    simp only [goParseDuration, toList_mk]
    have hh : core.head? = some c0 := by rw [hc0]; rfl
    have hb1 : (core.head? == some '-') = false := by
      rw [hh]
      simp only [beq_eq_false_iff_ne, ne_eq, Option.some.injEq]
      exact hminus
    have hb2 : (core.head? == some '+') = false := by
      rw [hh]
      simp only [beq_eq_false_iff_ne, ne_eq, Option.some.injEq]
      exact hplus
    have hd1 : ¬ d.natAbs > 2 ^ 63 - 1 := by omega
    simp only [hb1, hb2, Bool.or_false, Bool.false_eq_true, if_false]
    rw [if_neg hn0, if_neg hne, hloop]
    have hcast : (d.natAbs : Int) = d := by omega
    simp [if_neg hd1, hcast]
    omega

theorem natDigits_length_pos (n : Nat) : 0 < (natDigits n).length :=
  List.length_pos.mpr (natDigits_ne_nil n)

theorem head_natDigits_digit (n : Nat) (rest : List Char) :
    ∀ c, (natDigits n ++ rest).head? = some c → c.isDigit = true := by
  obtain ⟨c0, t0, h0⟩ := List.exists_cons_of_ne_nil (natDigits_ne_nil n)
  intro c hc
  rw [h0] at hc
  simp only [List.cons_append, List.head?_cons, Option.some.injEq] at hc
  rw [← hc]
  exact natDigits_all_digit n c0 (by rw [h0]; exact List.mem_cons_self _ _)

theorem core_ne_nil (a : Nat) (rest : List Char) : natDigits a ++ rest ≠ [] := by
  intro he
  exact natDigits_ne_nil a (List.append_eq_nil.mp he).1

theorem core_ne_zero_singleton (a : Nat) (rest : List Char) (h : 1 ≤ rest.length) :
    natDigits a ++ rest ≠ ['0'] := by
  intro he
  have hlen := congrArg List.length he
  simp only [List.length_append, List.length_cons, List.length_nil] at hlen
  have := natDigits_length_pos a
  omega

theorem durLoop_step_nofrac_mid (orig : String) (fuel : Nat) (a U : Nat)
    (unitCs rest : List Char) (d : Nat)
    (hU : unitMap unitCs = some U)
    (hrest : ∀ c, rest.head? = some c → isUnitChar c = false)
    (hsum : d + a * U ≤ 2 ^ 63) :
    durLoop orig (fuel + 1) (natDigits a ++ (unitCs ++ rest)) d
      = durLoop orig fuel rest (d + a * U) := by
  rw [← durLoop_step_nofrac orig fuel a U unitCs rest d hU hrest hsum]
  congr 1
  simp [List.append_assoc]

theorem durLoop_step_nofrac_last (orig : String) (fuel : Nat) (a U : Nat)
    (unitCs : List Char) (d : Nat)
    (hU : unitMap unitCs = some U)
    (hsum : d + a * U ≤ 2 ^ 63) :
    durLoop orig (fuel + 1) (natDigits a ++ unitCs) d = .ok (d + a * U) := by
  have h1 := durLoop_step_nofrac orig fuel a U unitCs [] d hU
    (fun c hc => by simp at hc) hsum
  rw [durLoop_nil] at h1
  rw [← h1]
  congr 1
  simp

theorem durLoop_numfrac_last (orig : String) (fuel : Nat) (Q R p : Nat)
    (unitCs : List Char) (d : Nat)
    (hp : unitMap unitCs = some (10 ^ p))
    (hR : R < 10 ^ p) (hp9 : p ≤ 9)
    (hsum : d + (Q * 10 ^ p + R) ≤ 2 ^ 63) :
    durLoop orig (fuel + 1)
      (natDigits Q
        ++ ((if R = 0 then [] else '.' :: dropTrailingZeros (padDigits p R)) ++ unitCs)) d
      = .ok (d + (Q * 10 ^ p + R)) := by
  have h1 := durLoop_numfrac orig fuel Q R p unitCs [] d hp hR hp9
    (fun c hc => by simp at hc) hsum
  rw [durLoop_nil] at h1
  rw [← h1]
  congr 1
  simp [List.append_assoc]

theorem parse_durationString (d : Int) (hlo : -(2 ^ 63) ≤ d) (hhi : d < 2 ^ 63) :
    goParseDuration (durationString d) = .ok d := by
  by_cases hd0 : d = 0
  · subst hd0
    rfl
  · have hu1 : 1 ≤ d.natAbs := by omega
    have hu2 : d.natAbs ≤ 2 ^ 63 := by omega
    by_cases hA : d.natAbs < 1000
    · rw [durationString_eq_ns d (by omega) hA]
      apply goParseDuration_of_core d (natDigits d.natAbs ++ ['n', 's'])
        (head_natDigits_digit _ _) (core_ne_nil _ _)
        (core_ne_zero_singleton _ _ (by simp)) ?_ hlo hhi hd0
      intro orig
      rw [durLoop_step_nofrac_last orig _ d.natAbs 1 ['n', 's'] 0 (by decide) (by omega)]
      congr 1
      omega
    · by_cases hB : d.natAbs < 1000000
      · rw [durationString_eq_us d (by omega) hB]
        apply goParseDuration_of_core d
          (natDigits (d.natAbs / 10 ^ 3)
            ++ ((if d.natAbs % 10 ^ 3 = 0 then []
                 else '.' :: dropTrailingZeros (padDigits 3 (d.natAbs % 10 ^ 3)))
              ++ ['µ', 's']))
          (head_natDigits_digit _ _) (core_ne_nil _ _)
          (core_ne_zero_singleton _ _ (by simp)) ?_ hlo hhi hd0
        intro orig
        rw [durLoop_numfrac_last orig _ (d.natAbs / 10 ^ 3) (d.natAbs % 10 ^ 3) 3
          ['µ', 's'] 0 (by decide) (by omega) (by omega) (by omega)]
        congr 1
        omega
      · by_cases hC : d.natAbs < 1000000000
        · rw [durationString_eq_ms d (by omega) hC]
          apply goParseDuration_of_core d
            (natDigits (d.natAbs / 10 ^ 6)
              ++ ((if d.natAbs % 10 ^ 6 = 0 then []
                   else '.' :: dropTrailingZeros (padDigits 6 (d.natAbs % 10 ^ 6)))
                ++ ['m', 's']))
            (head_natDigits_digit _ _) (core_ne_nil _ _)
            (core_ne_zero_singleton _ _ (by simp)) ?_ hlo hhi hd0
          intro orig
          rw [durLoop_numfrac_last orig _ (d.natAbs / 10 ^ 6) (d.natAbs % 10 ^ 6) 6
            ['m', 's'] 0 (by decide) (by omega) (by omega) (by omega)]
          congr 1
          omega
        · rw [durationString_eq_s d (by omega)]
          by_cases hm : d.natAbs / 10 ^ 9 / 60 > 0
          · by_cases hh : d.natAbs / 10 ^ 9 / 60 / 60 > 0
            · simp only [if_pos hm, if_pos hh]
              rw [show (natDigits (d.natAbs / 10 ^ 9 / 60 / 60) ++ ['h'])
                    ++ (natDigits (d.natAbs / 10 ^ 9 / 60 % 60) ++ ['m'])
                    ++ (natDigits (d.natAbs / 10 ^ 9 % 60)
                      ++ ((if d.natAbs % 10 ^ 9 = 0 then []
                           else '.' :: dropTrailingZeros (padDigits 9 (d.natAbs % 10 ^ 9)))
                        ++ ['s']))
                  = natDigits (d.natAbs / 10 ^ 9 / 60 / 60)
                    ++ (['h'] ++ (natDigits (d.natAbs / 10 ^ 9 / 60 % 60)
                      ++ (['m'] ++ (natDigits (d.natAbs / 10 ^ 9 % 60)
                        ++ ((if d.natAbs % 10 ^ 9 = 0 then []
                             else '.' :: dropTrailingZeros (padDigits 9 (d.natAbs % 10 ^ 9)))
                          ++ ['s'])))))
                  from by simp [List.append_assoc]]
              apply goParseDuration_of_core d _
                (head_natDigits_digit _ _) (core_ne_nil _ _)
                (core_ne_zero_singleton _ _ (by simp)) ?_ hlo hhi hd0
              intro orig
              rw [durLoop_step_nofrac_mid orig _ (d.natAbs / 10 ^ 9 / 60 / 60)
                3600000000000 ['h'] _ 0 (by decide)
                (head_natDigits_append _ _) (by omega)]
              generalize hL : (natDigits (d.natAbs / 10 ^ 9 / 60 / 60)
                    ++ (['h'] ++ (natDigits (d.natAbs / 10 ^ 9 / 60 % 60)
                      ++ (['m'] ++ (natDigits (d.natAbs / 10 ^ 9 % 60)
                        ++ ((if d.natAbs % 10 ^ 9 = 0 then []
                             else '.' :: dropTrailingZeros (padDigits 9 (d.natAbs % 10 ^ 9)))
                          ++ ['s'])))))).length = L
              have hL2 : 2 ≤ L := by
                rw [← hL]
                have h1 := natDigits_length_pos (d.natAbs / 10 ^ 9 / 60 / 60)
                have h2 := natDigits_length_pos (d.natAbs / 10 ^ 9 / 60 % 60)
                simp only [List.length_append, List.length_cons]
                omega
              obtain ⟨f2, hf2⟩ : ∃ f2, L = f2 + 1 := ⟨L - 1, by omega⟩
              rw [hf2]
              rw [durLoop_step_nofrac_mid orig _ (d.natAbs / 10 ^ 9 / 60 % 60)
                60000000000 ['m'] _ _ (by decide)
                (head_natDigits_append _ _) (by omega)]
              obtain ⟨f3, hf3⟩ : ∃ f3, f2 = f3 + 1 := ⟨f2 - 1, by omega⟩
              rw [hf3]
              rw [durLoop_numfrac_last orig _ (d.natAbs / 10 ^ 9 % 60) (d.natAbs % 10 ^ 9) 9
                ['s'] _ (by decide) (by omega) (by omega) (by omega)]
              congr 1
              omega
            · simp only [if_pos hm, if_neg hh, List.nil_append]
              rw [show (natDigits (d.natAbs / 10 ^ 9 / 60 % 60) ++ ['m'])
                    ++ (natDigits (d.natAbs / 10 ^ 9 % 60)
                      ++ ((if d.natAbs % 10 ^ 9 = 0 then []
                           else '.' :: dropTrailingZeros (padDigits 9 (d.natAbs % 10 ^ 9)))
                        ++ ['s']))
                  = natDigits (d.natAbs / 10 ^ 9 / 60 % 60)
                    ++ (['m'] ++ (natDigits (d.natAbs / 10 ^ 9 % 60)
                      ++ ((if d.natAbs % 10 ^ 9 = 0 then []
                           else '.' :: dropTrailingZeros (padDigits 9 (d.natAbs % 10 ^ 9)))
                        ++ ['s'])))
                  from by simp [List.append_assoc]]
              apply goParseDuration_of_core d _
                (head_natDigits_digit _ _) (core_ne_nil _ _)
                (core_ne_zero_singleton _ _ (by simp)) ?_ hlo hhi hd0
              intro orig
              rw [durLoop_step_nofrac_mid orig _ (d.natAbs / 10 ^ 9 / 60 % 60)
                60000000000 ['m'] _ 0 (by decide)
                (head_natDigits_append _ _) (by omega)]
              generalize hL : (natDigits (d.natAbs / 10 ^ 9 / 60 % 60)
                    ++ (['m'] ++ (natDigits (d.natAbs / 10 ^ 9 % 60)
                      ++ ((if d.natAbs % 10 ^ 9 = 0 then []
                           else '.' :: dropTrailingZeros (padDigits 9 (d.natAbs % 10 ^ 9)))
                        ++ ['s'])))).length = L
              have hL1 : 1 ≤ L := by
                rw [← hL]
                have h1 := natDigits_length_pos (d.natAbs / 10 ^ 9 / 60 % 60)
                simp only [List.length_append, List.length_cons]
                omega
              obtain ⟨f2, hf2⟩ : ∃ f2, L = f2 + 1 := ⟨L - 1, by omega⟩
              rw [hf2]
              rw [durLoop_numfrac_last orig _ (d.natAbs / 10 ^ 9 % 60) (d.natAbs % 10 ^ 9) 9
                ['s'] _ (by decide) (by omega) (by omega) (by omega)]
              congr 1
              omega
          · simp only [if_neg hm]
            apply goParseDuration_of_core d
              (natDigits (d.natAbs / 10 ^ 9 % 60)
                ++ ((if d.natAbs % 10 ^ 9 = 0 then []
                     else '.' :: dropTrailingZeros (padDigits 9 (d.natAbs % 10 ^ 9)))
                  ++ ['s']))
              (head_natDigits_digit _ _) (core_ne_nil _ _)
              (core_ne_zero_singleton _ _ (by simp)) ?_ hlo hhi hd0
            intro orig
            rw [durLoop_numfrac_last orig _ (d.natAbs / 10 ^ 9 % 60) (d.natAbs % 10 ^ 9) 9
              ['s'] 0 (by decide) (by omega) (by omega) (by omega)]
            congr 1
            omega

/-- Characters the JSON encoder emits unchanged and the scanner reads back
unchanged: everything except the quote, the backslash, control characters,
the HTML-escaped characters and the line/paragraph separators. -/
def plainChar (c : Char) : Bool :=
  !(c == '"') && !(c == '\\') && !(decide (c.toNat < 32)) && !(c == '<')
    && !(c == '>') && !(c == '&') && !(c.toNat == 0x2028) && !(c.toNat == 0x2029)

theorem plainChar_iff (c : Char) :
    plainChar c = true ↔ ¬c = '"' ∧ ¬c = '\\' ∧ 32 ≤ c.toNat ∧ ¬c = '<' ∧ ¬c = '>'
      ∧ ¬c = '&' ∧ ¬c.toNat = 0x2028 ∧ ¬c.toNat = 0x2029 := by
  simp [plainChar, Bool.and_eq_true, Bool.not_eq_true', beq_eq_false_iff_ne,
    decide_eq_false_iff_not, Nat.not_lt, and_assoc]

theorem plain_of_digit (c : Char) (h : c.isDigit = true) : plainChar c = true := by
  have hb := (char_isDigit_iff c).mp h
  apply (plainChar_iff c).mpr
  refine ⟨?_, ?_, by omega, ?_, ?_, ?_, by omega, by omega⟩ <;>
    (intro he; rw [he] at hb; exact absurd hb (by decide))

theorem escapeChar_plain (c : Char) (h : plainChar c = true) : escapeChar c = [c] := by
  obtain ⟨h1, h2, h3, h4, h5, h6, h7, h8⟩ := (plainChar_iff c).mp h
  have hn : ¬c = '\n' := by intro he; rw [he] at h3; exact absurd h3 (by decide)
  have hr : ¬c = '\r' := by intro he; rw [he] at h3; exact absurd h3 (by decide)
  have ht : ¬c = '\t' := by intro he; rw [he] at h3; exact absurd h3 (by decide)
  unfold escapeChar
  rw [if_neg h1, if_neg h2, if_neg hn, if_neg hr, if_neg ht,
    if_neg (by omega : ¬c.toNat < 32),
    if_neg (by rw [not_or, not_or]; exact ⟨h4, h5, h6⟩),
    if_neg (by rw [not_or]; exact ⟨h7, h8⟩)]

theorem flatten_escape_plain (l : List Char) (h : ∀ c ∈ l, plainChar c = true) :
    (l.map escapeChar).flatten = l := by
  induction l with
  | nil => rfl
  | cons c t ih =>
    simp only [List.map_cons, List.flatten_cons,
      escapeChar_plain c (h c (List.mem_cons_self _ _)),
      ih (fun ch hm => h ch (List.mem_cons_of_mem c hm))]
    rfl

theorem jsonMarshalString_plain (s : String)
    (h : ∀ c ∈ s.toList, plainChar c = true) :
    jsonMarshalString s = String.mk ('"' :: s.toList ++ ['"']) := by
  unfold jsonMarshalString
  rw [flatten_escape_plain s.toList h]

theorem mem_dtz (c : Char) (l : List Char) (h : c ∈ dropTrailingZeros l) : c ∈ l := by
  unfold dropTrailingZeros at h
  rw [List.mem_reverse] at h
  have := (List.dropWhile_sublist (fun ch => ch == '0')).mem h
  rwa [List.mem_reverse] at this

theorem plain_of_frac (c : Char) (p R : Nat)
    (h : c ∈ (if R = 0 then [] else '.' :: dropTrailingZeros (padDigits p R))) :
    plainChar c = true := by
  split at h
  · simp at h
  · rcases List.mem_cons.mp h with h1 | h1
    · rw [h1]; decide
    · exact plain_of_digit c (padDigits_all_digit p R c (mem_dtz c _ h1))

theorem durationString_chars (d : Int) :
    ∀ c ∈ (durationString d).toList, plainChar c = true := by
  intro c hc
  have hsign : ∀ (core : List Char), c ∈ (if d < 0 then '-' :: core else core) →
      c = '-' ∨ c ∈ core := by
    intro core hm
    split at hm
    · rcases List.mem_cons.mp hm with h1 | h1
      · exact Or.inl h1
      · exact Or.inr h1
    · exact Or.inr hm
  by_cases h0 : d.natAbs = 0
  · unfold durationString at hc
    rw [if_pos (by omega), if_pos h0] at hc
    rcases List.mem_cons.mp hc with h1 | h1
    · rw [h1]; decide
    · simp at h1
      rw [h1]; decide
  · by_cases hA : d.natAbs < 1000
    · rw [durationString_eq_ns d h0 hA, toList_mk] at hc
      rcases hsign _ hc with h1 | h1
      · rw [h1]; decide
      · rcases List.mem_append.mp h1 with h2 | h2
        · exact plain_of_digit c (natDigits_all_digit _ c h2)
        · rcases List.mem_cons.mp h2 with h3 | h3
          · rw [h3]; decide
          · simp at h3; rw [h3]; decide
    · by_cases hB : d.natAbs < 1000000
      · rw [durationString_eq_us d (by omega) hB, toList_mk] at hc
        rcases hsign _ hc with h1 | h1
        · rw [h1]; decide
        · rcases List.mem_append.mp h1 with h2 | h2
          · exact plain_of_digit c (natDigits_all_digit _ c h2)
          · rcases List.mem_append.mp h2 with h3 | h3
            · exact plain_of_frac c 3 _ h3
            · rcases List.mem_cons.mp h3 with h4 | h4
              · rw [h4]; decide
              · simp at h4; rw [h4]; decide
      · by_cases hC : d.natAbs < 1000000000
        · rw [durationString_eq_ms d (by omega) hC, toList_mk] at hc
          rcases hsign _ hc with h1 | h1
          · rw [h1]; decide
          · rcases List.mem_append.mp h1 with h2 | h2
            · exact plain_of_digit c (natDigits_all_digit _ c h2)
            · rcases List.mem_append.mp h2 with h3 | h3
              · exact plain_of_frac c 6 _ h3
              · rcases List.mem_cons.mp h3 with h4 | h4
                · rw [h4]; decide
                · simp at h4; rw [h4]; decide
        · rw [durationString_eq_s d (by omega), toList_mk] at hc
          have hsPart : c ∈ natDigits (d.natAbs / 10 ^ 9 % 60)
              ++ ((if d.natAbs % 10 ^ 9 = 0 then []
                   else '.' :: dropTrailingZeros (padDigits 9 (d.natAbs % 10 ^ 9)))
                ++ ['s']) → plainChar c = true := by
            intro h1
            rcases List.mem_append.mp h1 with h2 | h2
            · exact plain_of_digit c (natDigits_all_digit _ c h2)
            · rcases List.mem_append.mp h2 with h3 | h3
              · exact plain_of_frac c 9 _ h3
              · simp at h3; rw [h3]; decide
          rcases hsign _ hc with h1 | h1
          · rw [h1]; decide
          · split at h1
            · rcases List.mem_append.mp h1 with h2 | h2
              · rcases List.mem_append.mp h2 with h3 | h3
                · split at h3
                  · rcases List.mem_append.mp h3 with h4 | h4
                    · exact plain_of_digit c (natDigits_all_digit _ c h4)
                    · simp at h4; rw [h4]; decide
                  · simp at h3
                · rcases List.mem_append.mp h3 with h4 | h4
                  · exact plain_of_digit c (natDigits_all_digit _ c h4)
                  · simp at h4; rw [h4]; decide
              · exact hsPart h2
            · exact hsPart h1

theorem quote_string_eq (s : String) :
    "\"" ++ s ++ "\"" = String.mk ('"' :: s.toList ++ ['"']) := by
  cases s with
  | mk l => rfl

theorem scanStringAux_plain (l : List Char) :
    ∀ (extra : List Char) (fuel : Nat), l.length < fuel →
      (∀ c ∈ l, plainChar c = true) →
      scanStringAux fuel (l ++ '"' :: extra) = some (l, extra) := by
  induction l with
  | nil =>
    intro extra fuel hf _
    cases fuel with
    | zero => omega
    | succ f => simp [scanStringAux]
  | cons c t ih =>
    intro extra fuel hf hpl
    cases fuel with
    | zero => omega
    | succ f =>
      obtain ⟨h1, h2, h3, -⟩ := (plainChar_iff c).mp (hpl c (List.mem_cons_self _ _))
      simp only [List.cons_append, scanStringAux, if_neg h1, if_neg h2,
        if_neg (by omega : ¬c.toNat < 32)]
      show Option.map _ (scanStringAux f (t ++ '"' :: extra)) = _
      rw [ih extra f (by simp at hf; omega)
        (fun ch hm => hpl ch (List.mem_cons_of_mem c hm))]
      rfl

theorem parseJTop_quoted (l : List Char) (hpl : ∀ c ∈ l, plainChar c = true) :
    parseJTop (String.mk ('"' :: l ++ ['"'])) = .ok (.jstr l) := by
  unfold parseJTop
  rw [toList_mk]
  rw [show skipWSl ('"' :: l ++ ['"']) = '"' :: (l ++ ['"']) from
    skipWSl_cons_not_ws '"' _ (by decide)]
  simp only [if_neg (by decide : ¬ '"' = 'n'), if_neg (by decide : ¬ '"' = 't'),
    if_neg (by decide : ¬ '"' = 'f'), if_pos rfl]
  rw [show l ++ ['"'] = l ++ '"' :: [] from rfl]
  rw [scanStringAux_plain l [] ((l ++ '"' :: []).length + 1)
    (by simp [List.length_append]; omega) hpl]
  rfl

theorem jsonUnmarshalInt64_quoted (l : List Char)
    (hpl : ∀ c ∈ l, plainChar c = true) :
    jsonUnmarshalInt64 (String.mk ('"' :: l ++ ['"']))
      = .error (.typeError "string" "time.Duration") := by
  unfold jsonUnmarshalInt64
  rw [parseJTop_quoted l hpl]

theorem jsonUnmarshalString_quoted (l : List Char)
    (hpl : ∀ c ∈ l, plainChar c = true) :
    jsonUnmarshalString (String.mk ('"' :: l ++ ['"'])) = .ok (some (String.mk l)) := by
  unfold jsonUnmarshalString
  rw [parseJTop_quoted l hpl]

theorem unmarshal_quoted (d0 : Int) (l : List Char)
    (hpl : ∀ c ∈ l, plainChar c = true) :
    Duration.unmarshalJSON d0 (String.mk ('"' :: l ++ ['"']))
      = match goParseDuration (String.mk l) with
        | .ok v => (none, v)
        | .error e => (some e, d0) := by
  unfold Duration.unmarshalJSON
  rw [jsonUnmarshalInt64_quoted l hpl, jsonUnmarshalString_quoted l hpl]
  show (match goParseDuration (String.mk l) with
        | .error e => (some e, d0)
        | .ok v => (none, v)) = _
  cases goParseDuration (String.mk l) <;> rfl

/-- The characters a unit key may contain. -/
def unitLetter (c : Char) : Bool :=
  c == 'n' || c == 'u' || c == 'µ' || c == 'μ' || c == 's' || c == 'm' || c == 'h'

theorem unitMap_chars (l : List Char) (u : Nat) :
    unitMap l = some u → ∀ c ∈ l, unitLetter c = true := by
  unfold unitMap
  split <;> intro h c hc <;> first
    | (simp only [List.mem_cons, List.not_mem_nil, or_false] at hc
       rcases hc with rfl | rfl <;> decide)
    | (simp only [List.mem_cons, List.not_mem_nil, or_false] at hc
       subst hc
       decide)
    | cases h

/-- The characters a duration expression accepted by `ParseDuration` may
contain, past the optional sign. -/
def durChar (c : Char) : Bool := c.isDigit || c == '.' || unitLetter c

theorem durChar_plain (c : Char) (h : durChar c = true) : plainChar c = true := by
  have h2 : c.isDigit = true ∨ c = '.' ∨ c = 'n' ∨ c = 'u' ∨ c = 'µ' ∨ c = 'μ'
      ∨ c = 's' ∨ c = 'm' ∨ c = 'h' := by
    simp only [durChar, unitLetter, Bool.or_eq_true, beq_iff_eq] at h
    tauto
  rcases h2 with hd | h1 | h1 | h1 | h1 | h1 | h1 | h1 | h1
  · exact plain_of_digit c hd
  all_goals (subst h1; decide)

theorem durChar_of_digit (c : Char) (h : c.isDigit = true) : durChar c = true := by
  simp [durChar, h]

theorem leadingIntAux_consumed (cs : List Char) : ∀ x v s2,
    leadingIntAux cs x = .ok (v, s2) →
    ∃ pre, cs = pre ++ s2 ∧ ∀ c ∈ pre, c.isDigit = true := by
  induction cs with
  | nil =>
    intro x v s2 h
    simp only [leadingIntAux, Except.ok.injEq, Prod.mk.injEq] at h
    exact ⟨[], by rw [← h.2]; rfl, fun c hc => by simp at hc⟩
  | cons c t ih =>
    intro x v s2 h
    by_cases hc : c.isDigit = true
    · simp only [leadingIntAux, hc, if_true] at h
      split at h
      · cases h
      · split at h
        · cases h
        · obtain ⟨pre, hp, hd⟩ := ih _ _ _ h
          exact ⟨c :: pre, by rw [List.cons_append, ← hp],
            fun ch hm => by
              rcases List.mem_cons.mp hm with h1 | h1
              · rw [h1]; exact hc
              · exact hd ch h1⟩
    · simp only [leadingIntAux, hc, Bool.false_eq_true, if_false,
        Except.ok.injEq, Prod.mk.injEq] at h
      exact ⟨[], by rw [← h.2]; rfl, fun ch hm => by simp at hm⟩

theorem leadingFractionAux_consumed (cs : List Char) : ∀ x sc ov f sc2 s2,
    leadingFractionAux cs x sc ov = (f, sc2, s2) →
    ∃ pre, cs = pre ++ s2 ∧ ∀ c ∈ pre, c.isDigit = true := by
  induction cs with
  | nil =>
    intro x sc ov f sc2 s2 h
    simp only [leadingFractionAux, Prod.mk.injEq] at h
    exact ⟨[], by rw [← h.2.2]; rfl, fun c hc => by simp at hc⟩
  | cons c t ih =>
    intro x sc ov f sc2 s2 h
    by_cases hc : c.isDigit = true
    · simp only [leadingFractionAux, hc, if_true] at h
      have hstep : ∃ x2 sc2b ov2, leadingFractionAux t x2 sc2b ov2 = (f, sc2, s2) := by
        split at h
        · exact ⟨_, _, _, h⟩
        · split at h
          · exact ⟨_, _, _, h⟩
          · split at h
            · exact ⟨_, _, _, h⟩
            · exact ⟨_, _, _, h⟩
      obtain ⟨x2, sc2b, ov2, h2⟩ := hstep
      obtain ⟨pre, hp, hd⟩ := ih _ _ _ _ _ _ h2
      exact ⟨c :: pre, by rw [List.cons_append, ← hp],
        fun ch hm => by
          rcases List.mem_cons.mp hm with h1 | h1
          · rw [h1]; exact hc
          · exact hd ch h1⟩
    · simp only [leadingFractionAux, hc, Bool.false_eq_true, if_false,
        Prod.mk.injEq] at h
      exact ⟨[], by rw [← h.2.2]; rfl, fun ch hm => by simp at hm⟩

theorem leadingInt_consumed (cs : List Char) (v : Nat) (s2 : List Char)
    (h : leadingInt cs = .ok (v, s2)) :
    ∃ pre, cs = pre ++ s2 ∧ ∀ c ∈ pre, c.isDigit = true :=
  leadingIntAux_consumed cs 0 v s2 h

theorem head_eq_cons (l : List Char) (c : Char) (h : l.head? = some c) :
    l = c :: l.tail := by
  cases l with
  | nil => cases h
  | cons a t =>
    simp only [List.head?_cons, Option.some.injEq] at h
    rw [h]
    rfl

theorem final_if_inv (orig : String) (d V d2 : Nat) (rest s4 : List Char)
    (h : (if d + V > 2 ^ 63 then Except.error (GoErr.invalidDuration orig)
          else Except.ok (d + V, rest)) = .ok (d2, s4)) :
    d2 ≤ 2 ^ 63 ∧ s4 = rest := by
  split at h
  · cases h
  · rename_i hle
    rw [Except.ok.injEq, Prod.mk.injEq] at h
    refine ⟨by omega, h.2.symm⟩

theorem durIter_chars_frac_end (c : Char) (cs pre1 pre2 sf s2 s4 : List Char) (u : Nat)
    (hp1 : c :: cs = pre1 ++ s2) (hdot : s2.head? = some '.')
    (hp2 : s2.tail = pre2 ++ sf)
    (hd1 : ∀ ch ∈ pre1, ch.isDigit = true) (hd2 : ∀ ch ∈ pre2, ch.isDigit = true)
    (hU : unitMap (sf.takeWhile isUnitChar) = some u)
    (hs : s4 = sf.dropWhile isUnitChar) :
    ∃ pre, c :: cs = pre ++ s4 ∧ ∀ ch ∈ pre, durChar ch = true := by
  refine ⟨pre1 ++ '.' :: (pre2 ++ sf.takeWhile isUnitChar), ?_, ?_⟩
  · rw [hp1, head_eq_cons s2 '.' hdot, hp2, hs]
    simp only [List.append_assoc, List.cons_append]
    rw [List.takeWhile_append_dropWhile]
  · intro ch hm
    rcases List.mem_append.mp hm with h1 | h1
    · exact durChar_of_digit ch (hd1 ch h1)
    · rcases List.mem_cons.mp h1 with h1 | h1
      · rw [h1]; decide
      · rcases List.mem_append.mp h1 with h2 | h2
        · exact durChar_of_digit ch (hd2 ch h2)
        · have := unitMap_chars _ _ hU ch h2
          simp [durChar, this]

theorem durIter_chars_plain_end (c : Char) (cs pre1 s2 s4 : List Char) (u : Nat)
    (hp1 : c :: cs = pre1 ++ s2)
    (hd1 : ∀ ch ∈ pre1, ch.isDigit = true)
    (hU : unitMap (s2.takeWhile isUnitChar) = some u)
    (hs : s4 = s2.dropWhile isUnitChar) :
    ∃ pre, c :: cs = pre ++ s4 ∧ ∀ ch ∈ pre, durChar ch = true := by
  refine ⟨pre1 ++ s2.takeWhile isUnitChar, ?_, ?_⟩
  · rw [hp1, hs]
    simp only [List.append_assoc]
    rw [List.takeWhile_append_dropWhile]
  · intro ch hm
    rcases List.mem_append.mp hm with h1 | h1
    · exact durChar_of_digit ch (hd1 ch h1)
    · have := unitMap_chars _ _ hU ch h1
      simp [durChar, this]

theorem durIter_inv (orig : String) (c : Char) (cs : List Char) (d d2 : Nat)
    (s4 : List Char) (h : durIter orig c cs d = .ok (d2, s4)) :
    d2 ≤ 2 ^ 63 ∧ ∃ pre, c :: cs = pre ++ s4 ∧ ∀ ch ∈ pre, durChar ch = true := by
  unfold durIter at h
  split at h
  case isFalse => cases h
  case isTrue hcond =>
    split at h
    case h_1 => cases h
    case h_2 v s2 hLI =>
      obtain ⟨pre1, hp1, hd1⟩ := leadingInt_consumed _ _ _ hLI
      by_cases hdot : s2.head? = some '.'
      · rw [if_pos hdot] at h
        simp only at h
        rcases hfr : leadingFraction s2.tail with ⟨ff, scf, sf⟩
        rw [hfr] at h
        obtain ⟨pre2, hp2, hd2⟩ := leadingFractionAux_consumed _ _ _ _ _ _ _ hfr
        simp only at h
        split at h
        · cases h
        · split at h
          · cases h
          · split at h
            · cases h
            · rename_i u hU
              split at h
              · cases h
              · split at h
                · split at h
                  · cases h
                  · obtain ⟨hb, hs⟩ := final_if_inv orig d _ d2 _ s4 h
                    exact ⟨hb, durIter_chars_frac_end c cs pre1 pre2 sf s2 s4 u
                      hp1 hdot hp2 hd1 hd2 hU hs⟩
                · split at h
                  · cases h
                  · obtain ⟨hb, hs⟩ := final_if_inv orig d _ d2 _ s4 h
                    exact ⟨hb, durIter_chars_frac_end c cs pre1 pre2 sf s2 s4 u
                      hp1 hdot hp2 hd1 hd2 hU hs⟩
      · rw [if_neg hdot] at h
        simp only at h
        split at h
        · cases h
        · split at h
          · cases h
          · split at h
            · cases h
            · rename_i u hU
              split at h
              · cases h
              · split at h
                · split at h
                  · cases h
                  · obtain ⟨hb, hs⟩ := final_if_inv orig d _ d2 _ s4 h
                    exact ⟨hb, durIter_chars_plain_end c cs pre1 s2 s4 u hp1 hd1 hU hs⟩
                · split at h
                  · cases h
                  · obtain ⟨hb, hs⟩ := final_if_inv orig d _ d2 _ s4 h
                    exact ⟨hb, durIter_chars_plain_end c cs pre1 s2 s4 u hp1 hd1 hU hs⟩

theorem durLoop_inv (orig : String) : ∀ (fuel : Nat) (cs : List Char) (d r : Nat),
    durLoop orig fuel cs d = .ok r → d ≤ 2 ^ 63 →
    r ≤ 2 ^ 63 ∧ ∀ c ∈ cs, durChar c = true := by
  intro fuel
  induction fuel with
  | zero =>
    intro cs d r h hd
    cases cs with
    | nil =>
      rw [durLoop_nil, Except.ok.injEq] at h
      exact ⟨h ▸ hd, fun c hc => by simp at hc⟩
    | cons c t => cases h
  | succ f ih =>
    intro cs d r h hd
    cases cs with
    | nil =>
      rw [durLoop_nil, Except.ok.injEq] at h
      exact ⟨h ▸ hd, fun c hc => by simp at hc⟩
    | cons c t =>
      rw [durLoop_cons] at h
      split at h
      · cases h
      · rename_i d2 s4 hit
        obtain ⟨hb, pre, hp, hdc⟩ := durIter_inv orig c t d d2 s4 hit
        obtain ⟨hr, hs4⟩ := ih s4 d2 r h hb
        refine ⟨hr, ?_⟩
        intro ch hm
        rw [hp] at hm
        rcases List.mem_append.mp hm with h1 | h1
        · exact hdc ch h1
        · exact hs4 ch h1

theorem goParseDuration_inv (s : String) (v : Int) (h : goParseDuration s = .ok v) :
    (-(2 ^ 63) ≤ v ∧ v ≤ 2 ^ 63 - 1) ∧ ∀ c ∈ s.toList, plainChar c = true := by
  unfold goParseDuration at h
  simp only at h
  by_cases hsgn : (s.toList.head? == some '-' || s.toList.head? == some '+') = true
  · rw [if_pos hsgn] at h
    have hne : s.toList ≠ [] := by
      intro he
      rw [he] at hsgn
      simp at hsgn
    obtain ⟨c0, t0, hct⟩ := List.exists_cons_of_ne_nil hne
    have hc0 : c0 = '-' ∨ c0 = '+' := by
      rw [hct] at hsgn
      simp only [List.head?_cons, Bool.or_eq_true, beq_iff_eq, Option.some.injEq] at hsgn
      exact hsgn
    have hc0plain : plainChar c0 = true := by
      rcases hc0 with h1 | h1 <;> (rw [h1]; decide)
    rw [hct] at h
    simp only [List.tail_cons, List.head?_cons] at h
    split at h
    · rename_i hz
      rw [Except.ok.injEq] at h
      refine ⟨⟨by omega, by omega⟩, ?_⟩
      intro c hm
      rw [hct] at hm
      rcases List.mem_cons.mp hm with h1 | h1
      · rw [h1]; exact hc0plain
      · rw [hz] at h1
        simp at h1
        rw [h1]; decide
    · split at h
      · cases h
      · split at h
        · cases h
        · rename_i dd hdl
          obtain ⟨hdd, hchars⟩ := durLoop_inv _ _ _ _ _ hdl (by omega)
          have hplain : ∀ c ∈ s.toList, plainChar c = true := by
            intro c hm
            rw [hct] at hm
            rcases List.mem_cons.mp hm with h1 | h1
            · rw [h1]; exact hc0plain
            · exact durChar_plain c (hchars c h1)
          split at h
          · rw [Except.ok.injEq] at h
            exact ⟨⟨by omega, by omega⟩, hplain⟩
          · split at h
            · cases h
            · rename_i hgt
              rw [Except.ok.injEq] at h
              exact ⟨⟨by omega, by omega⟩, hplain⟩
  · rw [if_neg hsgn] at h
    have hnegf : (s.toList.head? == some '-') = false := by
      cases hb : (s.toList.head? == some '-')
      · rfl
      · exact absurd (by rw [hb]; rfl) hsgn
    rw [hnegf] at h
    simp only [Bool.false_eq_true, if_false] at h
    split at h
    · rename_i hz
      rw [Except.ok.injEq] at h
      refine ⟨⟨by omega, by omega⟩, ?_⟩
      intro c hm
      rw [hz] at hm
      simp at hm
      rw [hm]; decide
    · split at h
      · cases h
      · split at h
        · cases h
        · rename_i dd hdl
          obtain ⟨hdd, hchars⟩ := durLoop_inv _ _ _ _ _ hdl (by omega)
          split at h
          · cases h
          · rename_i hgt
            rw [Except.ok.injEq] at h
            exact ⟨⟨by omega, by omega⟩,
              fun c hm => durChar_plain c (hchars c hm)⟩

theorem mk_toList (s : String) : String.mk s.toList = s := by
  cases s
  rfl

theorem toList_append (a b : String) : (a ++ b).toList = a.toList ++ b.toList := by
  cases a
  cases b
  rfl

theorem takeWhile_all_eq (p : Char → Bool) (l : List Char)
    (h : ∀ c ∈ l, p c = true) : l.takeWhile p = l ∧ l.dropWhile p = [] := by
  have h2 := takeWhile_append_all p l [] h (fun c hc => by simp at hc)
  simpa using h2

theorem digit_not_ws (c : Char) (h : c.isDigit = true) : jsonWS c = false := by
  have hb := (char_isDigit_iff c).mp h
  cases hw : jsonWS c
  · rfl
  · exfalso
    simp only [jsonWS, Bool.or_eq_true, beq_iff_eq] at hw
    rcases hw with ((h1 | h1) | h1) | h1 <;> (rw [h1] at hb; exact absurd hb (by decide))

theorem scanFracExp_nil (acc : List Char) : scanFracExp acc [] = some (acc, []) := rfl

theorem scanNumber_natDigits (m : Nat) :
    scanNumber (natDigits m) = some (natDigits m, []) := by
  by_cases h0 : m = 0
  · subst h0
    rfl
  · obtain ⟨c0, ds, hnd⟩ := List.exists_cons_of_ne_nil (natDigits_ne_nil m)
    have hc0d : c0.isDigit = true :=
      natDigits_all_digit m c0 (by rw [hnd]; exact List.mem_cons_self _ _)
    have hds : ∀ c ∈ ds, c.isDigit = true :=
      fun c hc => natDigits_all_digit m c (by rw [hnd]; exact List.mem_cons_of_mem _ hc)
    have hc0ne : ¬c0 = '0' := natDigits_head_ne_zero m (by omega) c0 ds hnd
    have hnm : ¬(c0 = '-') := by
      intro he
      rw [he] at hc0d
      exact absurd hc0d (by decide)
    rw [hnd]
    unfold scanNumber
    have hbeq : ((c0 :: ds).head? == some '-') = false := by
      simp only [List.head?_cons, beq_eq_false_iff_ne, ne_eq, Option.some.injEq]
      exact hnm
    simp only [hbeq, Bool.false_eq_true, if_false]
    rw [if_neg hc0ne, if_pos hc0d]
    obtain ⟨ht, hd⟩ := takeWhile_all_eq Char.isDigit ds hds
    rw [ht, hd, scanFracExp_nil]
    rfl

theorem scanNumber_negDigits (m : Nat) (hm : 0 < m) :
    scanNumber ('-' :: natDigits m) = some ('-' :: natDigits m, []) := by
  obtain ⟨c0, ds, hnd⟩ := List.exists_cons_of_ne_nil (natDigits_ne_nil m)
  have hc0d : c0.isDigit = true :=
    natDigits_all_digit m c0 (by rw [hnd]; exact List.mem_cons_self _ _)
  have hds : ∀ c ∈ ds, c.isDigit = true :=
    fun c hc => natDigits_all_digit m c (by rw [hnd]; exact List.mem_cons_of_mem _ hc)
  have hc0ne : ¬c0 = '0' := natDigits_head_ne_zero m hm c0 ds hnd
  unfold scanNumber
  simp only [List.head?_cons, show (some '-' == some '-') = true from by decide, if_true]
  rw [hnd]
  simp only [List.tail_cons]
  rw [if_neg hc0ne, if_pos hc0d]
  obtain ⟨ht, hd⟩ := takeWhile_all_eq Char.isDigit ds hds
  rw [ht, hd, scanFracExp_nil]
  rfl

theorem digit_ne_letters (c : Char) (h : c.isDigit = true) :
    ¬c = 'n' ∧ ¬c = 't' ∧ ¬c = 'f' ∧ ¬c = '"' ∧ ¬c = '{' ∧ ¬c = '[' := by
  have hb := (char_isDigit_iff c).mp h
  refine ⟨?_, ?_, ?_, ?_, ?_, ?_⟩ <;>
    (intro he; rw [he] at hb; exact absurd hb (by decide))

theorem parseJTop_natDigits (m : Nat) :
    parseJTop (String.mk (natDigits m)) = .ok (.jnum (natDigits m)) := by
  obtain ⟨c0, ds, hnd⟩ := List.exists_cons_of_ne_nil (natDigits_ne_nil m)
  have hc0d : c0.isDigit = true :=
    natDigits_all_digit m c0 (by rw [hnd]; exact List.mem_cons_self _ _)
  obtain ⟨hn, ht, hf, hq, hb, hk⟩ := digit_ne_letters c0 hc0d
  unfold parseJTop
  rw [toList_mk, hnd, skipWSl_cons_not_ws c0 ds (digit_not_ws c0 hc0d)]
  simp only [if_neg hn, if_neg ht, if_neg hf, if_neg hq, if_neg hb, if_neg hk]
  rw [← hnd, scanNumber_natDigits m]
  rfl

theorem parseJTop_negDigits (m : Nat) (hm : 0 < m) :
    parseJTop (String.mk ('-' :: natDigits m)) = .ok (.jnum ('-' :: natDigits m)) := by
  unfold parseJTop
  rw [toList_mk, skipWSl_cons_not_ws '-' _ (by decide)]
  simp only [if_neg (by decide : ¬ '-' = 'n'), if_neg (by decide : ¬ '-' = 't'),
    if_neg (by decide : ¬ '-' = 'f'), if_neg (by decide : ¬ '-' = '"'),
    if_neg (by decide : ¬ '-' = '{'), if_neg (by decide : ¬ '-' = '[')]
  rw [scanNumber_negDigits m hm]
  rfl

theorem goParseInt64_natDigits (m : Nat) (hm : m ≤ 2 ^ 63 - 1) :
    goParseInt64 (natDigits m) = some (m : Int) := by
  obtain ⟨c0, ds, hnd⟩ := List.exists_cons_of_ne_nil (natDigits_ne_nil m)
  have hc0d : c0.isDigit = true :=
    natDigits_all_digit m c0 (by rw [hnd]; exact List.mem_cons_self _ _)
  have hb := (char_isDigit_iff c0).mp hc0d
  unfold goParseInt64
  rw [if_neg (by rw [hnd]; simp)]
  have hbeq : ((natDigits m).head? == some '-') = false := by
    rw [hnd]
    simp only [List.head?_cons, beq_eq_false_iff_ne, ne_eq, Option.some.injEq]
    intro he
    rw [he] at hb
    exact absurd hb (by decide)
  have hbeq2 : ((natDigits m).head? == some '+') = false := by
    rw [hnd]
    simp only [List.head?_cons, beq_eq_false_iff_ne, ne_eq, Option.some.injEq]
    intro he
    rw [he] at hb
    exact absurd hb (by decide)
  simp only [hbeq, hbeq2, Bool.or_self, Bool.false_eq_true, if_false]
  rw [if_neg (natDigits_ne_nil m),
    if_pos (List.all_eq_true.mpr (fun c hc => natDigits_all_digit m c hc)),
    digitsToNat_natDigits, if_pos hm]

theorem goParseInt64_negDigits (m : Nat) (hm : m ≤ 2 ^ 63) :
    goParseInt64 ('-' :: natDigits m) = some (-(m : Int)) := by
  unfold goParseInt64
  rw [if_neg (by simp)]
  simp only [List.head?_cons, show (some '-' == some '-') = true from by decide,
    Bool.true_or, if_true, List.tail_cons]
  rw [if_neg (natDigits_ne_nil m),
    if_pos (List.all_eq_true.mpr (fun c hc => natDigits_all_digit m c hc)),
    digitsToNat_natDigits, if_pos hm]

theorem jsonUnmarshalInt64_intDecimal (n : Int) (h1 : -(2 ^ 63) ≤ n)
    (h2 : n ≤ 2 ^ 63 - 1) :
    jsonUnmarshalInt64 (intDecimal n) = .ok (some n) := by
  unfold jsonUnmarshalInt64 intDecimal
  by_cases hn : n < 0
  · rw [if_pos hn, parseJTop_negDigits n.natAbs (by omega)]
    simp only
    rw [goParseInt64_negDigits n.natAbs (by omega)]
    have hc : -(n.natAbs : Int) = n := by omega
    rw [hc]
  · rw [if_neg hn, parseJTop_natDigits n.natAbs]
    simp only
    rw [goParseInt64_natDigits n.natAbs (by omega)]
    have hc : (n.natAbs : Int) = n := by omega
    rw [hc]

theorem unmarshal_intDecimal (d0 n : Int) (h1 : -(2 ^ 63) ≤ n) (h2 : n ≤ 2 ^ 63 - 1) :
    Duration.unmarshalJSON d0 (intDecimal n) = (none, n) := by
  unfold Duration.unmarshalJSON
  rw [jsonUnmarshalInt64_intDecimal n h1 h2]

theorem marshal_plain (d : Int) :
    Duration.marshalJSON d = "\"" ++ durationString d ++ "\"" := by
  unfold Duration.marshalJSON
  rw [jsonMarshalString_plain _ (durationString_chars d), quote_string_eq]

theorem unmarshal_duration_string (s : String) (v : Int)
    (h : goParseDuration s = .ok v) :
    Duration.unmarshalJSON 0 ("\"" ++ s ++ "\"") = (none, v) := by
  rw [quote_string_eq, unmarshal_quoted 0 s.toList (goParseDuration_inv s v h).2,
    mk_toList, h]

theorem unmarshal_duration_string_err (d0 : Int) (s : String) (e : GoErr)
    (hpl : ∀ c ∈ s.toList, plainChar c = true)
    (h : goParseDuration s = .error e) :
    Duration.unmarshalJSON d0 ("\"" ++ s ++ "\"") = (some e, d0) := by
  rw [quote_string_eq, unmarshal_quoted d0 s.toList hpl, mk_toList, h]

theorem goParseInt64_inv (cs : List Char) (v : Int) (h : goParseInt64 cs = some v) :
    -(2 ^ 63) ≤ v ∧ v ≤ 2 ^ 63 - 1 := by
  unfold goParseInt64 at h
  split at h
  · cases h
  · simp only at h
    by_cases hsgn : (cs.head? == some '-' || cs.head? == some '+') = true
    · rw [if_pos hsgn] at h
      split at h
      · cases h
      · split at h
        · split at h
          · split at h
            · rename_i hle
              rw [Option.some.injEq] at h
              omega
            · cases h
          · split at h
            · rename_i hle
              rw [Option.some.injEq] at h
              omega
            · cases h
        · cases h
    · rw [if_neg hsgn] at h
      split at h
      · cases h
      · split at h
        · split at h
          · split at h
            · rename_i hle
              rw [Option.some.injEq] at h
              omega
            · cases h
          · split at h
            · rename_i hle
              rw [Option.some.injEq] at h
              omega
            · cases h
        · cases h

theorem jsonUnmarshalInt64_inv (b : String) (v : Int)
    (h : jsonUnmarshalInt64 b = .ok (some v)) :
    -(2 ^ 63) ≤ v ∧ v ≤ 2 ^ 63 - 1 := by
  unfold jsonUnmarshalInt64 at h
  split at h
  · cases h
  · cases h
  · rename_i lit hJ
    split at h
    · rename_i w hw
      rw [Except.ok.injEq, Option.some.injEq] at h
      rw [← h]
      exact goParseInt64_inv lit w hw
    · cases h
  · cases h
  · cases h
  · cases h

theorem parseDur_range (x : String) (v : Int) (h : parseDur x = some v) :
    -(2 ^ 63) ≤ v ∧ v ≤ 2 ^ 63 - 1 := by
  unfold parseDur at h
  rcases hu : Duration.unmarshalJSON 0 x with ⟨err, val⟩
  rw [hu] at h
  cases err with
  | some e => cases h
  | none =>
    rw [Option.some.injEq] at h
    unfold Duration.unmarshalJSON at hu
    split at hu
    · rw [Prod.mk.injEq] at hu
      constructor <;> omega
    · rename_i w hw
      rw [Prod.mk.injEq] at hu
      obtain ⟨-, h2⟩ := hu
      have := jsonUnmarshalInt64_inv x w hw
      omega
    · split at hu
      · rw [Prod.mk.injEq] at hu
        cases hu.1
      · rename_i r hr
        cases r with
        | none =>
          have h1 : (some (GoErr.invalidDuration ""), (0 : Int))
              = ((none : Option GoErr), val) := hu
          rw [Prod.mk.injEq] at h1
          cases h1.1
        | some str =>
          simp only at hu
          split at hu
          · rw [Prod.mk.injEq] at hu
            cases hu.1
          · rename_i w hw
            rw [Prod.mk.injEq] at hu
            obtain ⟨-, h2⟩ := hu
            have hgi := goParseDuration_inv str w hw
            omega

theorem parseDur_serialize (v : Int) (h1 : -(2 ^ 63) ≤ v) (h2 : v < 2 ^ 63) :
    parseDur (serializeDur v) = some v := by
  unfold serializeDur
  rw [marshal_plain v]
  unfold parseDur
  rw [quote_string_eq, unmarshal_quoted 0 _ (durationString_chars v), mk_toList,
    parse_durationString v h1 h2]

/-- Every error raised by the duration parser carries the original input
string `orig`: it is one of the three `time` package error shapes. -/
def errHasOrig (orig : String) (e : GoErr) : Prop :=
  e = .invalidDuration orig ∨ e = .missingUnit orig ∨
    ∃ u, e = .unknownUnit u orig

theorem final_if_err (orig : String) (d V : Nat) (rest : List Char) (e : GoErr)
    (h : (if d + V > 2 ^ 63 then Except.error (GoErr.invalidDuration orig)
          else Except.ok (d + V, rest)) = Except.error e) :
    e = GoErr.invalidDuration orig := by
  split at h
  · rw [Except.error.injEq] at h
    exact h.symm
  · cases h

theorem durIter_error (orig : String) (c : Char) (cs : List Char) (d : Nat)
    (e : GoErr) (h : durIter orig c cs d = .error e) : errHasOrig orig e := by
  unfold durIter at h
  split at h
  case isFalse =>
    rw [Except.error.injEq] at h
    exact Or.inl h.symm
  case isTrue hcond =>
    split at h
    case h_1 =>
      rw [Except.error.injEq] at h
      exact Or.inl h.symm
    case h_2 v s2 hLI =>
      by_cases hdot : s2.head? = some '.'
      · rw [if_pos hdot] at h
        simp only at h
        rcases hfr : leadingFraction s2.tail with ⟨ff, scf, sf⟩
        rw [hfr] at h
        simp only at h
        split at h
        · rw [Except.error.injEq] at h
          exact Or.inl h.symm
        · split at h
          · rw [Except.error.injEq] at h
            exact Or.inr (Or.inl h.symm)
          · split at h
            · rw [Except.error.injEq] at h
              exact Or.inr (Or.inr ⟨_, h.symm⟩)
            · rename_i u hU
              split at h
              · rw [Except.error.injEq] at h
                exact Or.inl h.symm
              · split at h
                · split at h
                  · rw [Except.error.injEq] at h
                    exact Or.inl h.symm
                  · exact Or.inl (final_if_err orig d _ _ e h)
                · split at h
                  · rw [Except.error.injEq] at h
                    exact Or.inl h.symm
                  · exact Or.inl (final_if_err orig d _ _ e h)
      · rw [if_neg hdot] at h
        simp only at h
        split at h
        · rw [Except.error.injEq] at h
          exact Or.inl h.symm
        · split at h
          · rw [Except.error.injEq] at h
            exact Or.inr (Or.inl h.symm)
          · split at h
            · rw [Except.error.injEq] at h
              exact Or.inr (Or.inr ⟨_, h.symm⟩)
            · rename_i u hU
              split at h
              · rw [Except.error.injEq] at h
                exact Or.inl h.symm
              · split at h
                · split at h
                  · rw [Except.error.injEq] at h
                    exact Or.inl h.symm
                  · exact Or.inl (final_if_err orig d _ _ e h)
                · split at h
                  · rw [Except.error.injEq] at h
                    exact Or.inl h.symm
                  · exact Or.inl (final_if_err orig d _ _ e h)

theorem durLoop_error (orig : String) : ∀ (fuel : Nat) (cs : List Char)
    (d : Nat) (e : GoErr), durLoop orig fuel cs d = .error e →
    errHasOrig orig e := by
  intro fuel
  induction fuel with
  | zero =>
    intro cs d e h
    cases cs with
    | nil =>
      rw [durLoop_nil] at h
      cases h
    | cons c t =>
      unfold durLoop at h
      rw [Except.error.injEq] at h
      exact Or.inl h.symm
  | succ f ih =>
    intro cs d e h
    cases cs with
    | nil =>
      rw [durLoop_nil] at h
      cases h
    | cons c t =>
      rw [durLoop_cons] at h
      split at h
      · rename_i e2 hit
        rw [Except.error.injEq] at h
        exact h ▸ durIter_error orig c t d e2 hit
      · rename_i d2 s4 hit
        exact ih s4 d2 e h

theorem goParseDuration_error (s : String) (e : GoErr)
    (h : goParseDuration s = .error e) : errHasOrig s e := by
  unfold goParseDuration at h
  simp only at h
  by_cases hsgn : (s.toList.head? == some '-' || s.toList.head? == some '+') = true
  · rw [if_pos hsgn] at h
    split at h
    · cases h
    · split at h
      · rw [Except.error.injEq] at h
        exact Or.inl h.symm
      · split at h
        · rename_i e2 hdl
          rw [Except.error.injEq] at h
          exact h ▸ durLoop_error s _ _ _ e2 hdl
        · rename_i dd hdl
          split at h
          · cases h
          · split at h
            · rw [Except.error.injEq] at h
              exact Or.inl h.symm
            · cases h
  · rw [if_neg hsgn] at h
    split at h
    · cases h
    · split at h
      · rw [Except.error.injEq] at h
        exact Or.inl h.symm
      · split at h
        · rename_i e2 hdl
          rw [Except.error.injEq] at h
          exact h ▸ durLoop_error s _ _ _ e2 hdl
        · rename_i dd hdl
          split at h
          · cases h
          · split at h
            · rw [Except.error.injEq] at h
              exact Or.inl h.symm
            · cases h

theorem errHasOrig_message (orig : String) (e : GoErr) (h : errHasOrig orig e) :
    ∃ pre post : String, errMessage e = pre ++ orig ++ post := by
  rcases h with h | h | ⟨u, h⟩
  · exact ⟨"time: invalid duration \"", "\"", by rw [h]; rfl⟩
  · exact ⟨"time: missing unit in duration \"", "\"", by rw [h]; rfl⟩
  · exact ⟨"time: unknown unit \"" ++ u ++ "\" in duration \"", "\"",
      by rw [h]; rfl⟩

/-- JSON `null` into an `int64` target is a silent no-op: `UnmarshalJSON`
returns no error and leaves the receiver untouched. -/
theorem unmarshal_null (d0 : Int) :
    Duration.unmarshalJSON d0 "null" = (none, d0) := rfl

/-- On every failing path of `UnmarshalJSON` the receiver keeps its old
value: the only assignments happen after a successful parse. -/
theorem unmarshal_err_receiver (d0 val : Int) (b : String) (e : GoErr)
    (h : Duration.unmarshalJSON d0 b = (some e, val)) : val = d0 := by
  unfold Duration.unmarshalJSON at h
  split at h
  · rw [Prod.mk.injEq] at h
    cases h.1
  · rw [Prod.mk.injEq] at h
    cases h.1
  · split at h
    · rw [Prod.mk.injEq] at h
      exact h.2.symm
    · rename_i r hr
      cases r with
      | none =>
        have h1 : ((some (GoErr.invalidDuration ""), d0) : Option GoErr × Int)
            = (some e, val) := h
        rw [Prod.mk.injEq] at h1
        exact h1.2.symm
      | some str =>
        simp only at h
        split at h
        · rw [Prod.mk.injEq] at h
          exact h.2.symm
        · rw [Prod.mk.injEq] at h
          cases h.1

theorem all_digit_false (ds : List Char) (c0 : Char) (hm : c0 ∈ ds)
    (hnd : c0.isDigit = false) : ds.all Char.isDigit = false := by
  rw [Bool.eq_false_iff]
  intro hall
  rw [List.all_eq_true] at hall
  rw [hall c0 hm] at hnd
  cases hnd

/-- A number literal containing a dot or an exponent marker is rejected by
`strconv.ParseInt`. -/
theorem goParseInt64_none_frac (lit : List Char) (c0 : Char) (hm : c0 ∈ lit)
    (hc : (c0 == '.' || c0 == 'e' || c0 == 'E') = true) :
    goParseInt64 lit = none := by
  have hc3 : c0 = '.' ∨ c0 = 'e' ∨ c0 = 'E' := by
    simp only [Bool.or_eq_true, beq_iff_eq] at hc
    tauto
  have hnd : c0.isDigit = false := by
    rcases hc3 with h | h | h <;> (rw [h]; decide)
  cases lit with
  | nil => simp at hm
  | cons hd tl =>
    unfold goParseInt64
    rw [if_neg (List.cons_ne_nil hd tl)]
    simp only
    by_cases hsgn :
        ((hd :: tl).head? == some '-' || (hd :: tl).head? == some '+') = true
    · rw [if_pos hsgn]
      have hhd : hd = '-' ∨ hd = '+' := by
        simp only [List.head?_cons, Bool.or_eq_true, beq_iff_eq,
          Option.some.injEq] at hsgn
        exact hsgn
      have hmtl : c0 ∈ tl := by
        rcases List.mem_cons.mp hm with h1 | h1
        · exfalso
          rcases hhd with h2 | h2 <;> rcases hc3 with h3 | h3 | h3 <;>
            (rw [h2, h3] at h1; cases h1)
        · exact h1
      simp only [List.tail_cons]
      rw [all_digit_false tl c0 hmtl hnd]
      simp
    · rw [if_neg hsgn]
      rw [all_digit_false (hd :: tl) c0 hm hnd]
      simp

theorem jsonUnmarshalInt64_num_err (b : String) (lit : List Char)
    (hj : parseJTop b = .ok (.jnum lit)) (hnone : goParseInt64 lit = none) :
    jsonUnmarshalInt64 b
      = .error (.typeError ("number " ++ String.mk lit) "time.Duration") := by
  simp only [jsonUnmarshalInt64, hj, hnone]

theorem jsonUnmarshalString_num_err (b : String) (lit : List Char)
    (hj : parseJTop b = .ok (.jnum lit)) :
    jsonUnmarshalString b
      = .error (.typeError ("number " ++ String.mk lit) "string") := by
  simp only [jsonUnmarshalString, hj]

/-- A non-integer JSON number input fails `UnmarshalJSON`: the integer
decode rejects the literal, and the string decode then rejects the number. -/
theorem unmarshal_fracnum (d0 : Int) (b : String) (lit : List Char)
    (c0 : Char) (hj : parseJTop b = .ok (.jnum lit)) (hm : c0 ∈ lit)
    (hc : (c0 == '.' || c0 == 'e' || c0 == 'E') = true) :
    Duration.unmarshalJSON d0 b
      = (some (.typeError ("number " ++ String.mk lit) "string"), d0) := by
  simp only [Duration.unmarshalJSON,
    jsonUnmarshalInt64_num_err b lit hj (goParseInt64_none_frac lit c0 hm hc),
    jsonUnmarshalString_num_err b lit hj]

/-- C1 (amended: `n` restricted to the int64 range, `n < 2^63`): every
non-negative integer `n` below `2^63` given as a raw JSON number unmarshals
to exactly `n` nanoseconds, and marshalling that value emits the quoted
canonical human-readable string; in particular `1000000000` parses to 1s
which serializes to `"1s"`, and `300000000` parses to 300ms which
serializes to `"300ms"`.  The unrestricted claim fails at `n = 2^63`. -/
theorem C1_integer_nanoseconds (n : Int) (h0 : 0 ≤ n) (h1 : n < 2 ^ 63) :
    parseDur (intDecimal n) = some n ∧
    serializeDur n = "\"" ++ durationString n ++ "\"" ∧
    parseDur "1000000000" = some 1000000000 ∧
    serializeDur 1000000000 = "\"1s\"" ∧
    parseDur "300000000" = some 300000000 ∧
    serializeDur 300000000 = "\"300ms\"" := by
  refine ⟨?_, ?_, by decide, by decide, by decide, by decide⟩
  · unfold parseDur
    rw [unmarshal_intDecimal 0 n (by omega) (by omega)]
  · unfold serializeDur
    exact marshal_plain n

theorem C1_integer_nanoseconds_witness :
    ((0 : Int) ≤ 5 ∧ (5 : Int) < 2 ^ 63) ∧
    (parseDur (intDecimal 5) = some 5 ∧
     serializeDur 5 = "\"" ++ durationString 5 ++ "\"" ∧
     parseDur "1000000000" = some 1000000000 ∧
     serializeDur 1000000000 = "\"1s\"" ∧
     parseDur "300000000" = some 300000000 ∧
     serializeDur 300000000 = "\"300ms\"") :=
  ⟨⟨by omega, by omega⟩, C1_integer_nanoseconds 5 (by omega) (by omega)⟩

/-- C1 counterexample: `2^63 = 9223372036854775808` is a non-negative
integer, but its raw JSON number form is rejected by `UnmarshalJSON` (it
overflows int64), so the claim does not hold for every non-negative
integer `n`. -/
theorem C1_counterexample :
    intDecimal (2 ^ 63) = "9223372036854775808" ∧
    parseDur "9223372036854775808" = none := ⟨by decide, by decide⟩

/-- C2: every duration string `s` accepted by the unit-suffix grammar
(`time.ParseDuration`), presented as the quoted JSON string `"s"`,
unmarshals to the elapsed time `s` denotes; in particular `"2h45m"` parses
to 9900 seconds, which serializes back to `"2h45m0s"`. -/
theorem C2_duration_string (s : String) (v : Int)
    (h : goParseDuration s = Except.ok v) :
    Duration.unmarshalJSON 0 ("\"" ++ s ++ "\"") = (none, v) ∧
    parseDur "\"2h45m\"" = some (9900 * 1000000000) ∧
    serializeDur (9900 * 1000000000) = "\"2h45m0s\"" :=
  ⟨unmarshal_duration_string s v h, by decide, by decide⟩

theorem C2_duration_string_witness :
    goParseDuration "2h45m" = Except.ok 9900000000000 ∧
    (Duration.unmarshalJSON 0 ("\"" ++ "2h45m" ++ "\"")
       = (none, 9900000000000) ∧
     parseDur "\"2h45m\"" = some (9900 * 1000000000) ∧
     serializeDur (9900 * 1000000000) = "\"2h45m0s\"") :=
  ⟨rfl, C2_duration_string "2h45m" 9900000000000 rfl⟩

/-- C3: `MarshalJSON` always emits the quoted canonical human-readable
duration string — never the integer nanosecond form — whatever the stored
value; a value of 90 minutes serializes to `"1h30m0s"`. -/
theorem C3_marshal_canonical (d : Int) :
    Duration.marshalJSON d = "\"" ++ durationString d ++ "\"" ∧
    Duration.marshalJSON (90 * 60 * 1000000000) = "\"1h30m0s\"" :=
  ⟨marshal_plain d, by decide⟩

/-- C4: value-level round-trip: whenever `UnmarshalJSON` accepts `x`,
storing `v`, marshalling `v` and unmarshalling the output stores `v`
again, i.e. `parse(serialize(parse(x))) = parse(x)`. -/
theorem C4_roundtrip (x : String) (v : Int) (h : parseDur x = some v) :
    parseDur (serializeDur v) = some v := by
  have hr := parseDur_range x v h
  exact parseDur_serialize v hr.1 (by omega)

theorem C4_roundtrip_witness :
    parseDur "300000000" = some 300000000 ∧
    parseDur (serializeDur 300000000) = some 300000000 :=
  ⟨by decide, C4_roundtrip "300000000" 300000000 (by decide)⟩

/-- C5 (amended): when the input is a quoted JSON string whose contents
fail duration parsing, `UnmarshalJSON` fails with the duration parser's
error, whose message contains the offending contents; in particular
`"not-a-duration"` fails with a message containing `not-a-duration`.
However "never silently returns a zero value" does not hold of every input
matching neither encoding: JSON `null` is accepted silently, leaving the
receiver unchanged (zero for a fresh receiver); and no error named
`MalformedDuration` exists — the errors are the underlying `json` and
`time` package errors. -/
theorem C5_malformed (s : String) (e : GoErr)
    (hpl : ∀ c ∈ s.toList, plainChar c = true)
    (h : goParseDuration s = Except.error e) :
    (Duration.unmarshalJSON 0 ("\"" ++ s ++ "\"") = (some e, 0) ∧
      ∃ pre post : String, errMessage e = pre ++ s ++ post) ∧
    Duration.unmarshalJSON 0 "\"not-a-duration\""
      = (some (GoErr.invalidDuration "not-a-duration"), 0) ∧
    (∃ pre post : String,
      errMessage (GoErr.invalidDuration "not-a-duration")
        = pre ++ "not-a-duration" ++ post) ∧
    (∀ d0 : Int, Duration.unmarshalJSON d0 "null" = (none, d0)) :=
  ⟨⟨unmarshal_duration_string_err 0 s e hpl h,
      errHasOrig_message s e (goParseDuration_error s e h)⟩,
    by decide,
    ⟨"time: invalid duration \"", "\"", rfl⟩,
    fun d0 => unmarshal_null d0⟩

theorem C5_malformed_witness :
    (∀ c ∈ ("x" : String).toList, plainChar c = true) ∧
    goParseDuration "x" = Except.error (GoErr.invalidDuration "x") ∧
    ((Duration.unmarshalJSON 0 ("\"" ++ "x" ++ "\"")
        = (some (GoErr.invalidDuration "x"), 0) ∧
      ∃ pre post : String,
        errMessage (GoErr.invalidDuration "x") = pre ++ "x" ++ post) ∧
     Duration.unmarshalJSON 0 "\"not-a-duration\""
       = (some (GoErr.invalidDuration "not-a-duration"), 0) ∧
     (∃ pre post : String,
       errMessage (GoErr.invalidDuration "not-a-duration")
         = pre ++ "not-a-duration" ++ post) ∧
     (∀ d0 : Int, Duration.unmarshalJSON d0 "null" = (none, d0))) :=
  ⟨by decide, rfl, C5_malformed "x" (GoErr.invalidDuration "x") (by decide) rfl⟩

/-- C5 counterexample: the input `null` matches neither accepted encoding —
it is the JSON null literal, not a number and not a string, and not a valid
duration — yet `UnmarshalJSON` reports no error and a fresh receiver stays
at the zero value: a silently returned zero. -/
theorem C5_counterexample :
    parseJTop "null" = Except.ok JTop.jnull ∧
    goParseDuration "null" = Except.error (GoErr.invalidDuration "null") ∧
    Duration.unmarshalJSON 0 "null" = (none, 0) := ⟨rfl, rfl, rfl⟩

/-- C6: `DecorationConfig.Validate` returns no error for every
configuration, in particular for the all-absent one. -/
theorem C6_validate (c : DecorationConfig) :
    c.Validate = none ∧ emptyDecorationConfig.Validate = none := ⟨rfl, rfl⟩

/-- C7: the raw integer `0` and the quoted string `"0s"` both unmarshal to
the zero-length duration, and that value marshals to the JSON string
`"0s"`. -/
theorem C7_zero :
    parseDur "0" = some 0 ∧ parseDur "\"0s\"" = some 0 ∧
    serializeDur 0 = "\"0s\"" := ⟨by decide, by decide, by decide⟩

/-- C8: negative durations are preserved exactly: every negative int64
given as a raw JSON number unmarshals to itself, and the quoted string
`"-5m"` parses to minus 300 seconds; no clamping to zero occurs. -/
theorem C8_negative (n : Int) (h1 : -(2 ^ 63) ≤ n) (h2 : n < 0) :
    parseDur (intDecimal n) = some n ∧
    parseDur "\"-5m\"" = some (-(5 * 60 * 1000000000)) ∧
    serializeDur (-(5 * 60 * 1000000000)) = "\"-5m0s\"" := by
  refine ⟨?_, by decide, by decide⟩
  unfold parseDur
  rw [unmarshal_intDecimal 0 n h1 (by omega)]

theorem C8_negative_witness :
    (-(2 ^ 63) ≤ (-1 : Int) ∧ (-1 : Int) < 0) ∧
    (parseDur (intDecimal (-1)) = some (-1) ∧
     parseDur "\"-5m\"" = some (-(5 * 60 * 1000000000)) ∧
     serializeDur (-(5 * 60 * 1000000000)) = "\"-5m0s\"") :=
  ⟨⟨by omega, by omega⟩, C8_negative (-1) (by omega) (by omega)⟩

/-- C9: `UnmarshalJSON` is atomic: whenever it returns an error, the
receiver's stored duration is left unchanged, on every failure path. -/
theorem C9_receiver_unchanged (d0 : Int) (b : String) (e : GoErr)
    (h : (Duration.unmarshalJSON d0 b).1 = some e) :
    (Duration.unmarshalJSON d0 b).2 = d0 := by
  rcases hu : Duration.unmarshalJSON d0 b with ⟨err, val⟩
  rw [hu] at h
  have h1 : err = some e := h
  show val = d0
  rw [h1] at hu
  exact unmarshal_err_receiver d0 val b e hu

theorem C9_receiver_unchanged_witness :
    (Duration.unmarshalJSON 7 "true").1
      = some (GoErr.typeError "bool" "string") ∧
    (Duration.unmarshalJSON 7 "true").2 = 7 :=
  ⟨by decide,
    C9_receiver_unchanged 7 "true" (GoErr.typeError "bool" "string")
      (by decide)⟩

/-- C10: a JSON number that is not a plain integer — its literal contains a
dot or an exponent marker — is rejected by `UnmarshalJSON` rather than
truncated or read fractionally, while fractional values are accepted via
the quoted string form: `"1.5h"` parses to 5400 seconds. -/
theorem C10_fractional (d0 : Int) (b : String) (lit : List Char) (c0 : Char)
    (hj : parseJTop b = Except.ok (JTop.jnum lit)) (hm : c0 ∈ lit)
    (hc : (c0 == '.' || c0 == 'e' || c0 == 'E') = true) :
    Duration.unmarshalJSON d0 b
      = (some (GoErr.typeError ("number " ++ String.mk lit) "string"), d0) ∧
    parseDur "\"1.5h\"" = some 5400000000000 :=
  ⟨unmarshal_fracnum d0 b lit c0 hj hm hc, by decide⟩

theorem C10_fractional_witness :
    parseJTop "1.5" = Except.ok (JTop.jnum ['1', '.', '5']) ∧
    '.' ∈ ['1', '.', '5'] ∧
    ('.' == '.' || '.' == 'e' || '.' == 'E') = true ∧
    (Duration.unmarshalJSON 0 "1.5"
       = (some (GoErr.typeError ("number " ++ String.mk ['1', '.', '5'])
           "string"), 0) ∧
     parseDur "\"1.5h\"" = some 5400000000000) :=
  ⟨rfl, by decide, by decide,
    C10_fractional 0 "1.5" ['1', '.', '5'] '.' rfl (by decide) (by decide)⟩
